import Mathlib

/-!
The go-themes library: runtime accessor and build-time generator

A shallow embedding of `themes.go` (the runtime accessor `GetTheme`,
`ListThemes`, `GetAllThemes`) and of `generator/main.go` (the colour
normaliser `normalizeColor` and the record mapper inside `parseThemes`).

Modelling conventions.

* A Go `string` is a Lean `String`, read as its sequence of runes.
* `*Theme` is a reference to a record; a non-nil pointer is modelled by the
  record it points to and the nil pointer by `none`.
* The variable `allThemes : map[string]*Theme` lives in the generated file
  `generated_themes.go`; every function that reads it takes it as an argument.
  A map is given by its list of entries (pairwise distinct keys); a
  `for ... range` loop over the map visits the entries in some permutation of
  that list, and the visiting order is what the looping functions receive.
* `strings.ToLower` maps `unicode.ToLower` over the runes.  `unicode.ToLower`
  treats the runes up to `MaxASCII` by arithmetic and looks every other rune up
  in the Unicode case tables; that table lookup is the argument `lowerTable`.
* `sort.Slice` belongs to the Go standard library; `parseThemes` takes it as
  the argument `sortSlice`, and what is known of it is its documented contract
  (`sortSliceContract`).  The algorithm of the library, `pdqsort_func` with its
  helpers, is transcribed as `sort_Slice`; the pseudo-random numbers that
  `breakPatterns_func` draws are its argument `random`.
* `parseThemes` is modelled after `filepath.Glob` has listed the files: its
  input is the list of file paths, each with the record decoded from it or
  `none` when the file could not be read or decoded.
* `generateCode` is modelled up to the execution of the template, whose text
  is in the source; `text/template` writes a string value as it is.
-/

namespace Themes

/-! ## Strings -/

/-- The rune test `'A' <= r && r <= 'Z'`. -/
def isUpperASCII (r : Char) : Bool :=
  decide (65 ≤ r.toNat) && decide (r.toNat ≤ 90)

/-- Go's `unicode.ToLower`: a rune up to `MaxASCII` (0x7F) is lowered by adding
`'a' - 'A'` when it is an upper-case letter and kept otherwise; every other
rune is looked up in the case tables (`lowerTable`). -/
def unicodeToLower (lowerTable : Char → Char) (r : Char) : Char :=
  if r.toNat ≤ 127 then
    if isUpperASCII r then Char.ofNat (r.toNat + 32) else r
  else lowerTable r

/-- Go's `strings.ToLower`: every rune mapped by `unicode.ToLower`. -/
def ToLower (lowerTable : Char → Char) (s : String) : String :=
  ⟨s.data.map (unicodeToLower lowerTable)⟩

/-- Go's `strings.HasPrefix(s, pre)`. -/
def HasPrefix (s pre : String) : Bool :=
  pre.data.isPrefixOf s.data

/-- Go's `strings.HasSuffix(s, suf)`. -/
def HasSuffix (s suf : String) : Bool :=
  suf.data.isSuffixOf s.data

/-- Go's `strings.TrimSuffix(s, suf)`: `s` without the trailing `suf` when it
ends with it, `s` unchanged otherwise. -/
def TrimSuffix (s suf : String) : String :=
  if HasSuffix s suf then ⟨s.data.take (s.data.length - suf.data.length)⟩ else s

/-! ## themes.go -/

/-- The record type `Theme` of `themes.go` (the generator declares the same
twenty fields). -/
structure Theme where
  Name : String
  Foreground : String
  Background : String
  Cursor : String
  Black : String
  Red : String
  Green : String
  Yellow : String
  Blue : String
  Magenta : String
  Cyan : String
  White : String
  BrightBlack : String
  BrightRed : String
  BrightGreen : String
  BrightYellow : String
  BrightBlue : String
  BrightMagenta : String
  BrightCyan : String
  BrightWhite : String
  deriving DecidableEq, Repr

/-- Go `error` values returned by the package; `none` of `Option Error` is the
nil error. -/
inductive Error where
  | ErrThemeNotFound
  deriving DecidableEq, Repr

/-- `GetTheme`: `order` is the sequence of entries of `allThemes` as the
`range` loop visits them.  The first entry whose lower-cased key equals the
lower-cased query is returned with a nil error; when the loop ends without a
match the result is `(nil, ErrThemeNotFound)`. -/
def GetTheme (lowerTable : Char → Char) (order : List (String × Theme)) (name : String) :
    Option Theme × Option Error :=
  match order with
  | [] => (none, some Error.ErrThemeNotFound)
  | (themeName, theme) :: rest =>
    if ToLower lowerTable themeName = ToLower lowerTable name then (some theme, none)
    else GetTheme lowerTable rest name

/-- `ListThemes`: the keys appended in the order the `range` loop visits them;
nothing is done to the slice afterwards. -/
def ListThemes (order : List (String × Theme)) : List String :=
  order.foldl (fun themes entry => themes ++ [entry.1]) []

/-- `GetAllThemes`: the map itself. -/
def GetAllThemes (allThemes : List (String × Theme)) : List (String × Theme) :=
  allThemes

/-- The keys of a map. -/
def keys (allThemes : List (String × Theme)) : List String :=
  allThemes.map Prod.fst

/-- Go's `len(m)` for a map. -/
def len (allThemes : List (String × Theme)) : Nat :=
  allThemes.length

/-- Go's index expression `v, ok := m[k]`, with `none` for `ok == false`. -/
def index (allThemes : List (String × Theme)) (k : String) : Option Theme :=
  (allThemes.find? (fun entry => decide (entry.1 = k))).map Prod.snd

/-- A record whose colour fields are all `c`. -/
def plainTheme (name c : String) : Theme :=
  ⟨name, c, c, c, c, c, c, c, c, c, c, c, c, c, c, c, c, c, c, c⟩

/-! ## generator/main.go -/

/-- The source record `WindowsTerminalTheme`, as `json.Unmarshal` fills it: a
field absent from the JSON object is the empty string. -/
structure WindowsTerminalTheme where
  Name : String
  Foreground : String
  Background : String
  CursorColor : String
  Black : String
  Red : String
  Green : String
  Yellow : String
  Blue : String
  Purple : String
  Cyan : String
  White : String
  BrightBlack : String
  BrightRed : String
  BrightGreen : String
  BrightYellow : String
  BrightBlue : String
  BrightPurple : String
  BrightCyan : String
  BrightWhite : String
  SelectionBackground : String
  deriving DecidableEq, Repr

/-- `normalizeColor`: the empty string becomes `"#000000"`; any other string is
lower-cased and gets a `#` in front unless it already starts with one. -/
def normalizeColor (lowerTable : Char → Char) (color : String) : String :=
  if color = "" then "#000000"
  else
    let color := ToLower lowerTable color
    if !HasPrefix color "#" then "#" ++ color else color

/-- Go's `os.IsPathSeparator` on Unix. -/
def isPathSeparator (c : Char) : Bool :=
  decide (c = '/')

/-- Go's `filepath.Base` on Unix (no volume names): `"."` for the empty path;
otherwise trailing separators are stripped and the last element is returned,
or `"/"` when nothing is left. -/
def Base (path : String) : String :=
  if path = "" then "."
  else
    let stripped := path.data.reverse.dropWhile isPathSeparator
    let last := stripped.takeWhile (fun c => !isPathSeparator c)
    if last = [] then "/" else ⟨last.reverse⟩

/-- The body of the loop of `parseThemes` for one file that was read and
decoded: the name is the record's `name`, or the file name without `.json`
when that is empty, and every colour goes through `normalizeColor`. -/
def parseThemesEntry (lowerTable : Char → Char) (file : String)
    (wtTheme : WindowsTerminalTheme) : Theme :=
  let name := if wtTheme.Name = "" then TrimSuffix (Base file) ".json" else wtTheme.Name
  { Name := name
    Foreground := normalizeColor lowerTable wtTheme.Foreground
    Background := normalizeColor lowerTable wtTheme.Background
    Cursor := normalizeColor lowerTable wtTheme.CursorColor
    Black := normalizeColor lowerTable wtTheme.Black
    Red := normalizeColor lowerTable wtTheme.Red
    Green := normalizeColor lowerTable wtTheme.Green
    Yellow := normalizeColor lowerTable wtTheme.Yellow
    Blue := normalizeColor lowerTable wtTheme.Blue
    Magenta := normalizeColor lowerTable wtTheme.Purple
    Cyan := normalizeColor lowerTable wtTheme.Cyan
    White := normalizeColor lowerTable wtTheme.White
    BrightBlack := normalizeColor lowerTable wtTheme.BrightBlack
    BrightRed := normalizeColor lowerTable wtTheme.BrightRed
    BrightGreen := normalizeColor lowerTable wtTheme.BrightGreen
    BrightYellow := normalizeColor lowerTable wtTheme.BrightYellow
    BrightBlue := normalizeColor lowerTable wtTheme.BrightBlue
    BrightMagenta := normalizeColor lowerTable wtTheme.BrightPurple
    BrightCyan := normalizeColor lowerTable wtTheme.BrightCyan
    BrightWhite := normalizeColor lowerTable wtTheme.BrightWhite }

/-! ## Specification vocabulary -/

/-- The reference definition of the normaliser, in the words of the
specification: `"#000000"` for the empty string; otherwise the lower-cased
input when that starts with `#`, and `#` followed by the lower-cased input
when it does not. -/
def normalizeColorRef (lowerTable : Char → Char) (c : String) : String :=
  if c = "" then "#000000"
  else if (ToLower lowerTable c).data.head? = some '#' then ToLower lowerTable c
  else ⟨'#' :: (ToLower lowerTable c).data⟩

/-- A hexadecimal digit in either letter case: `[0-9a-fA-F]`. -/
def isHexDigit (c : Char) : Bool :=
  (decide (48 ≤ c.toNat) && decide (c.toNat ≤ 57)) ||
    (decide (97 ≤ c.toNat) && decide (c.toNat ≤ 102)) ||
    (decide (65 ≤ c.toNat) && decide (c.toNat ≤ 70))

/-- A lower-case hexadecimal digit: `[0-9a-f]`. -/
def isLowerHexDigit (c : Char) : Bool :=
  (decide (48 ≤ c.toNat) && decide (c.toNat ≤ 57)) ||
    (decide (97 ≤ c.toNat) && decide (c.toNat ≤ 102))

/-- Exactly six runes, all satisfying `p`. -/
def sixOf (p : Char → Bool) (ds : List Char) : Bool :=
  decide (ds.length = 6) && ds.all p

/-- The runes of a string without one leading `#`, when there is one. -/
def dropHash : List Char → List Char
  | [] => []
  | c :: ds => if c = '#' then ds else c :: ds

/-- The canonical hex colours: the strings matching `^#[0-9a-f]{6}$`, that is
`#` followed by exactly six lower-case hexadecimal digits. -/
def isCanonicalHex (s : String) : Bool :=
  match s.data with
  | [] => false
  | c :: ds => decide (c = '#') && sixOf isLowerHexDigit ds

/-- Six hexadecimal digits in any letter case, optionally preceded by one `#`. -/
def isHexTriplet (s : String) : Bool :=
  sixOf isHexDigit (dropHash s.data)

/-- Six lower-case hexadecimal digits, optionally preceded by one `#`. -/
def isLowerHexTriplet (s : String) : Bool :=
  sixOf isLowerHexDigit (dropHash s.data)

/-- The nineteen colour fields of a record. -/
def Theme.colors (t : Theme) : List String :=
  [t.Foreground, t.Background, t.Cursor, t.Black, t.Red, t.Green, t.Yellow, t.Blue,
    t.Magenta, t.Cyan, t.White, t.BrightBlack, t.BrightRed, t.BrightGreen, t.BrightYellow,
    t.BrightBlue, t.BrightMagenta, t.BrightCyan, t.BrightWhite]

/-- The nineteen colour fields of a source record that the mapper reads. -/
def WindowsTerminalTheme.colors (w : WindowsTerminalTheme) : List String :=
  [w.Foreground, w.Background, w.CursorColor, w.Black, w.Red, w.Green, w.Yellow, w.Blue,
    w.Purple, w.Cyan, w.White, w.BrightBlack, w.BrightRed, w.BrightGreen, w.BrightYellow,
    w.BrightBlue, w.BrightPurple, w.BrightCyan, w.BrightWhite]

/-- A source record with the given name whose colour fields are all `c`. -/
def plainSource (name c : String) : WindowsTerminalTheme :=
  ⟨name, c, c, c, c, c, c, c, c, c, c, c, c, c, c, c, c, c, c, c, c⟩

/-- The case table that changes no rune: lower-casing of ASCII letters only. -/
def asciiOnly : Char → Char :=
  fun r => r

/-- A two-entry catalog. -/
def catalogAB : List (String × Theme) :=
  [("Dracula", plainTheme "Dracula" "#282a36"), ("Nord", plainTheme "Nord" "#2e3440")]

/-- The catalog `catalogAB` visited in the opposite order. -/
def orderBA : List (String × Theme) :=
  [("Nord", plainTheme "Nord" "#2e3440"), ("Dracula", plainTheme "Dracula" "#282a36")]

/-- Go's `<` on strings, rune by rune: byte-wise comparison of UTF-8 text
orders strings as the sequences of their code points. -/
def runesLess : List Char → List Char → Bool
  | _, [] => false
  | [], _ :: _ => true
  | a :: as, b :: bs =>
    decide (a.toNat < b.toNat) || (decide (a.toNat = b.toNat) && runesLess as bs)

/-- Go's `a < b` on strings. -/
def stringLess (a b : String) : Bool :=
  runesLess a.data b.data

/-- A list of names in ascending order: no name is followed, anywhere later, by
a smaller one. -/
def isAscending (names : List String) : Prop :=
  names.Pairwise (fun a b => stringLess b a = false)

/-- The requirements the Go `sort` package puts on a `less` function: it is
false on equal arguments, transitive, and its negation is transitive. -/
def isTransitiveOrdering (less : Theme → Theme → Bool) : Prop :=
  (∀ a, less a a = false) ∧
    (∀ a b c, less a b = true → less b c = true → less a c = true) ∧
    (∀ a b c, less a b = false → less b c = false → less a c = false)

/-- The documented contract of Go's `sort.Slice`, which `parseThemes` takes as
the argument `sortSlice`: the slice is rearranged (elements are only swapped),
and for a `less` that is a transitive ordering no element is followed by a
smaller one.  The documentation promises nothing on the relative order of
elements that compare equal. -/
def sortSliceContract (sortSlice : (Theme → Theme → Bool) → List Theme → List Theme) : Prop :=
  ∀ less l, (sortSlice less l).Perm l ∧
    (isTransitiveOrdering less → (sortSlice less l).Pairwise (fun a b => less b a = false))

/-- The loop of `parseThemes` over the files that `filepath.Glob` returned.
Each file comes with the outcome of `os.ReadFile` and `json.Unmarshal`: `none`
when either failed (the file is logged and skipped), the decoded record
otherwise, which is mapped and appended. -/
def parseThemesLoop (lowerTable : Char → Char)
    (files : List (String × Option WindowsTerminalTheme)) : List Theme :=
  files.foldl
    (fun themes item =>
      match item.2 with
      | none => themes
      | some wtTheme => themes ++ [parseThemesEntry lowerTable item.1 wtTheme])
    []

/-- `parseThemes` once `filepath.Glob` has listed the files: the loop, then
`sort.Slice` with `themes[i].Name < themes[j].Name`; the error result is nil
on this path. -/
def parseThemes (lowerTable : Char → Char)
    (sortSlice : (Theme → Theme → Bool) → List Theme → List Theme)
    (files : List (String × Option WindowsTerminalTheme)) : List Theme :=
  sortSlice (fun a b => stringLess a.Name b.Name) (parseThemesLoop lowerTable files)

/-- What `filepath.Match "*.json"` accepts among the names of a directory: the
names ending in `.json`; the star matches any run of non-separator characters,
the empty one included. -/
def matchesJSON (name : String) : Bool :=
  HasSuffix name ".json" && !name.data.any isPathSeparator

/-- A template action between double quotes, as in `"\x7b\x7b .Name \x7d\x7d"`:
`text/template` writes the string value as it is. -/
def templateQuote (value : String) : String :=
  "\"" ++ value ++ "\""

/-- One field line of the template: the label, the quoted value, a comma. -/
def templateField (label value : String) : String :=
  "\t\t" ++ label ++ templateQuote value ++ ",\n"

/-- The text the template body writes for one record. -/
def templateEntry (t : Theme) : String :=
  "\n\t" ++ templateQuote t.Name ++ ": \x7b\n" ++
    templateField "Name:          " t.Name ++
    templateField "Foreground:    " t.Foreground ++
    templateField "Background:    " t.Background ++
    templateField "Cursor:        " t.Cursor ++
    templateField "Black:         " t.Black ++
    templateField "Red:           " t.Red ++
    templateField "Green:         " t.Green ++
    templateField "Yellow:        " t.Yellow ++
    templateField "Blue:          " t.Blue ++
    templateField "Magenta:       " t.Magenta ++
    templateField "Cyan:          " t.Cyan ++
    templateField "White:         " t.White ++
    templateField "BrightBlack:   " t.BrightBlack ++
    templateField "BrightRed:     " t.BrightRed ++
    templateField "BrightGreen:   " t.BrightGreen ++
    templateField "BrightYellow:  " t.BrightYellow ++
    templateField "BrightBlue:    " t.BrightBlue ++
    templateField "BrightMagenta: " t.BrightMagenta ++
    templateField "BrightCyan:    " t.BrightCyan ++
    templateField "BrightWhite:   " t.BrightWhite ++
    "\t\x7d,"

/-- The text in front of the entries. -/
def templateHeader : String :=
  "// Code generated by go generate; DO NOT EDIT.\n\npackage themes\n\nvar allThemes = map[string]*Theme\x7b"

/-- `generateCode` up to `t.Execute`: the text written to the buffer, one
template body for every record of the slice, in order.  (`format.Source` and
`os.WriteFile` follow; the formatter changes no token.) -/
def generateCode (themes : List Theme) : String :=
  templateHeader ++ String.join (themes.map templateEntry) ++ "\n\x7d\n"

/-- The value of a single-character escape of a Go interpreted string
literal. -/
def goEscape (c : Char) : Option Char :=
  if c = 'a' then some (Char.ofNat 7)
  else if c = 'b' then some (Char.ofNat 8)
  else if c = 'f' then some (Char.ofNat 12)
  else if c = 'n' then some (Char.ofNat 10)
  else if c = 'r' then some (Char.ofNat 13)
  else if c = 't' then some (Char.ofNat 9)
  else if c = 'v' then some (Char.ofNat 11)
  else if c = Char.ofNat 92 then some (Char.ofNat 92)
  else if c = Char.ofNat 34 then some (Char.ofNat 34)
  else none

/-- The runes denoted by the inside of a Go interpreted string literal: a
backslash starts an escape, an unescaped double quote or a newline cannot occur
inside, every other rune stands for itself.  Escapes that give a byte or a code
point by number are not part of this model and yield `none`. -/
def goLiteralBody : List Char → Option (List Char)
  | [] => some []
  | c :: rest =>
    if c = Char.ofNat 92 then
      match rest with
      | [] => none
      | e :: rest2 =>
        match goEscape e, goLiteralBody rest2 with
        | some v, some vs => some (v :: vs)
        | _, _ => none
    else if c = Char.ofNat 34 then none
    else if c = Char.ofNat 10 then none
    else (goLiteralBody rest).map (fun vs => c :: vs)

/-- The string denoted by a Go interpreted string literal, quotes included;
`none` when the text is not one such literal. -/
def goStringLiteral (text : String) : Option String :=
  match text.data with
  | [] => none
  | q :: body =>
    if q = Char.ofNat 34 ∧ body.getLast? = some (Char.ofNat 34) then
      (goLiteralBody body.dropLast).map String.mk
    else none

/-- An instance of `sort.Slice`: insertion sort, which keeps equal elements in
their order. -/
def insertionSortSlice (less : Theme → Theme → Bool) (l : List Theme) : List Theme :=
  l.insertionSort (fun a b => less b a = false)

/-- The records of a list that carry the name `n`, in their order. -/
def withName (n : String) (l : List Theme) : List Theme :=
  l.filter (fun t => decide (t.Name = n))

/-- A source record as in the scenario of the specification: name `X`, purple
`#AA00AA`, bright purple `AA11BB`, no foreground, every other colour `#112233`. -/
def sourceX : WindowsTerminalTheme :=
  { plainSource "X" "#112233" with
    Purple := "#AA00AA", BrightPurple := "AA11BB", Foreground := "" }

/-- A catalog with two keys that differ only in letter case, in the order a
`range` loop may visit them. -/
def orderFoo : List (String × Theme) :=
  [("Foo", plainTheme "Foo" "#111111"), ("foo", plainTheme "foo" "#222222")]

/-- A directory listing with a file that could not be decoded; the two
records that are read have no `name` field. -/
def filesAZ : List (String × Option WindowsTerminalTheme) :=
  [("themes/ayu.json", some (plainSource "" "")),
    ("themes/Zenburn.json", some (plainSource "" "#FFFFFF")),
    ("themes/broken.json", none)]

/-- The listing `filesAZ` with the first two files in the other order. -/
def filesZA : List (String × Option WindowsTerminalTheme) :=
  [("themes/Zenburn.json", some (plainSource "" "#FFFFFF")),
    ("themes/ayu.json", some (plainSource "" "")),
    ("themes/broken.json", none)]

/-- Two files whose records both carry the name `X`. -/
def filesXX : List (String × Option WindowsTerminalTheme) :=
  [("themes/x1.json", some (plainSource "X" "111111")),
    ("themes/x2.json", some (plainSource "X" "222222"))]

/-- A record whose name holds a backslash followed by the letter `n`. -/
def themeBackslash : Theme :=
  plainTheme "a\\nb" "#000000"

/-! ## Go's sort.Slice -/

/-- `data.Less(i, j)` for the `less` closure handed to `sort.Slice`, which
compares the elements at the two indices. -/
def lessAt {α : Type} (less : α → α → Bool) (data : List α) (i j : Nat) : Bool :=
  match data[i]?, data[j]? with
  | some x, some y => less x y
  | _, _ => false

/-- `data.Swap(i, j)`: the elements at the two indices exchanged. -/
def swapAt {α : Type} (data : List α) (i j : Nat) : List α :=
  match data[i]?, data[j]? with
  | some x, some y => (data.set i y).set j x
  | _, _ => data

/-- The inner loop of `insertionSort_func`:
`for j := i; j > a && data.Less(j, j-1); j-- { data.Swap(j, j-1) }`. -/
def insertionSortInner {α : Type} (less : α → α → Bool) (a : Nat) : Nat → List α → List α
  | 0, data => data
  | j + 1, data =>
    if a < j + 1 ∧ lessAt less data (j + 1) j = true then
      insertionSortInner less a j (swapAt data (j + 1) j)
    else data

/-- Go's `insertionSort_func(data, a, b)`: `for i := a + 1; i < b; i++` around
the inner loop. -/
def insertionSort_func {α : Type} (less : α → α → Bool) (data : List α) (a b : Nat) : List α :=
  (List.range' (a + 1) (b - (a + 1))).foldl (fun d i => insertionSortInner less a i d) data

/-- Go's `siftDown_func(data, lo, hi, first)`, the loop run from `root`; the
first argument bounds the number of rounds. -/
def siftDown_func {α : Type} (less : α → α → Bool) (hi first : Nat) :
    Nat → List α → Nat → List α
  | 0, data, _ => data
  | fuel + 1, data, root =>
    if 2 * root + 1 ≥ hi then data
    else
      let child :=
        if 2 * root + 1 + 1 < hi ∧
            lessAt less data (first + (2 * root + 1)) (first + (2 * root + 1) + 1) = true
        then 2 * root + 1 + 1 else 2 * root + 1
      if lessAt less data (first + root) (first + child) = false then data
      else siftDown_func less hi first fuel (swapAt data (first + root) (first + child)) child

/-- Go's `heapSort_func(data, a, b)`: the heap is built from `(hi - 1) / 2` down
to `0`, then the elements are popped from `hi - 1` down to `0`. -/
def heapSort_func {α : Type} (less : α → α → Bool) (data : List α) (a b : Nat) : List α :=
  let hi := b - a
  let built := (List.range ((hi - 1) / 2 + 1)).reverse.foldl
    (fun d i => siftDown_func less hi a hi d i) data
  (List.range hi).reverse.foldl
    (fun d i => siftDown_func less i a i (swapAt d a (a + i)) 0) built

/-- Go's `bits.Len`, counted on at most `fuel` binary digits. -/
def bitsLenAux : Nat → Nat → Nat
  | 0, _ => 0
  | fuel + 1, n => if n = 0 then 0 else 1 + bitsLenAux fuel (n / 2)

/-- Go's `bits.Len(uint(n))`: the number of binary digits of `n`. -/
def bitsLen (n : Nat) : Nat :=
  bitsLenAux n n

/-- Go's `breakPatterns_func(data, a, b)`.  `random length i` stands for the
value of the call number `i` of `Next` on the generator seeded with `length`;
masking with `modulus - 1` is the remainder modulo the power of two. -/
def breakPatterns_func {α : Type} (random : Nat → Nat → Nat) (data : List α) (a b : Nat) :
    List α :=
  let length := b - a
  if length ≥ 8 then
    let modulus := 2 ^ bitsLen length
    let idx := a + (length / 4) * 2 - 1
    (List.range 3).foldl
      (fun d i =>
        let other := random length i % modulus
        let other := if other ≥ length then other - length else other
        swapAt d (idx - 1 + i) (a + other))
      data
  else data

/-- Go's `sortedHint`. -/
inductive sortedHint where
  | unknownHint
  | increasingHint
  | decreasingHint
  deriving DecidableEq, Repr

/-- Go's `order2_func(data, a, b, swaps)`, returning the two indices and the
counter. -/
def order2_func {α : Type} (less : α → α → Bool) (data : List α) (a b swaps : Nat) :
    Nat × Nat × Nat :=
  if lessAt less data b a = true then (b, a, swaps + 1) else (a, b, swaps)

/-- Go's `median_func(data, a, b, c, swaps)`, returning the index and the
counter. -/
def median_func {α : Type} (less : α → α → Bool) (data : List α) (a b c swaps : Nat) :
    Nat × Nat :=
  let r1 := order2_func less data a b swaps
  let r2 := order2_func less data r1.2.1 c r1.2.2
  let r3 := order2_func less data r1.1 r2.1 r2.2.2
  (r3.2.1, r3.2.2)

/-- Go's `medianAdjacent_func(data, a, swaps)`. -/
def medianAdjacent_func {α : Type} (less : α → α → Bool) (data : List α) (a swaps : Nat) :
    Nat × Nat :=
  median_func less data (a - 1) a (a + 1) swaps

/-- Go's `choosePivot_func(data, a, b)`: a static pivot below 8 elements, the
median of three below 50, Tukey's ninther from 50 on. -/
def choosePivot_func {α : Type} (less : α → α → Bool) (data : List α) (a b : Nat) :
    Nat × sortedHint :=
  let l := b - a
  let i := a + l / 4 * 1
  let j := a + l / 4 * 2
  let k := a + l / 4 * 3
  let chosen : Nat × Nat :=
    if l ≥ 8 then
      if l ≥ 50 then
        let mi := medianAdjacent_func less data i 0
        let mj := medianAdjacent_func less data j mi.2
        let mk := medianAdjacent_func less data k mj.2
        median_func less data mi.1 mj.1 mk.1 mk.2
      else median_func less data i j k 0
    else (j, 0)
  if chosen.2 = 0 then (chosen.1, sortedHint.increasingHint)
  else if chosen.2 = 12 then (chosen.1, sortedHint.decreasingHint)
  else (chosen.1, sortedHint.unknownHint)

/-- Go's `reverseRange_func(data, a, b)`. -/
def reverseRange_func {α : Type} (data : List α) (a b : Nat) : List α :=
  (List.range ((b - a) / 2)).foldl (fun d t => swapAt d (a + t) (b - 1 - t)) data

/-- The loop `for i <= j && p(i) { i++ }`. -/
def scanUp (p : Nat → Bool) (j : Nat) : Nat → Nat → Nat
  | 0, i => i
  | fuel + 1, i => if i ≤ j ∧ p i = true then scanUp p j fuel (i + 1) else i

/-- The loop `for i <= j && p(j) { j-- }`; `i` is at least 1 where it is
used, so that `j` does not go below 0. -/
def scanDown (p : Nat → Bool) (i : Nat) : Nat → Nat
  | 0 => 0
  | j + 1 => if i ≤ j + 1 ∧ p (j + 1) = true then scanDown p i j else j + 1

/-- The loop of `partialInsertionSort_func` that shifts the smaller element
to the left: `for j := i - 1; j >= 1; j--`. -/
def shiftLeft {α : Type} (less : α → α → Bool) : Nat → List α → List α
  | 0, data => data
  | j + 1, data =>
    if lessAt less data (j + 1) j = false then data
    else shiftLeft less j (swapAt data (j + 1) j)

/-- The loop of `partialInsertionSort_func` that shifts the greater element
to the right: `for j := i + 1; j < b; j++`. -/
def shiftRight {α : Type} (less : α → α → Bool) (b : Nat) : Nat → Nat → List α → List α
  | 0, _, data => data
  | fuel + 1, j, data =>
    if j < b then
      if lessAt less data j (j - 1) = false then data
      else shiftRight less b fuel (j + 1) (swapAt data j (j - 1))
    else data

/-- The rounds of `partialInsertionSort_func` (at most `maxSteps = 5`), from
the position `i`; the result tells whether the slice is sorted at the end. -/
def partialInsertionSortSteps {α : Type} (less : α → α → Bool) (a b : Nat) :
    Nat → Nat → List α → List α × Bool
  | 0, _, data => (data, false)
  | steps + 1, i, data =>
    let i := scanUp (fun i => !lessAt less data i (i - 1)) (b - 1) b i
    if i = b then (data, true)
    else if b - a < 50 then (data, false)
    else
      let swapped := swapAt data i (i - 1)
      let left := if i - a ≥ 2 then shiftLeft less (i - 1) swapped else swapped
      let right := if b - i ≥ 2 then shiftRight less b b (i + 1) left else left
      partialInsertionSortSteps less a b steps i right

/-- Go's `partialInsertionSort_func(data, a, b)`. -/
def partialInsertionSort_func {α : Type} (less : α → α → Bool) (data : List α) (a b : Nat) :
    List α × Bool :=
  partialInsertionSortSteps less a b 5 (a + 1) data

/-- The loop of `partitionEqual_func`; the result is the slice and `i`. -/
def partitionEqualLoop {α : Type} (less : α → α → Bool) (a : Nat) :
    Nat → List α → Nat → Nat → List α × Nat
  | 0, data, i, _ => (data, i)
  | fuel + 1, data, i, j =>
    let i := scanUp (fun i => !lessAt less data a i) j (j + 1) i
    let j := scanDown (fun j => lessAt less data a j) i j
    if i > j then (data, i)
    else partitionEqualLoop less a fuel (swapAt data i j) (i + 1) (j - 1)

/-- Go's `partitionEqual_func(data, a, b, pivot)`. -/
def partitionEqual_func {α : Type} (less : α → α → Bool) (data : List α) (a b pivot : Nat) :
    List α × Nat :=
  partitionEqualLoop less a (b - a + 1) (swapAt data a pivot) (a + 1) (b - 1)

/-- The second loop of `partition_func`; the result is the slice and `j`. -/
def partitionLoop {α : Type} (less : α → α → Bool) (a : Nat) :
    Nat → List α → Nat → Nat → List α × Nat
  | 0, data, _, j => (data, j)
  | fuel + 1, data, i, j =>
    let i := scanUp (fun i => lessAt less data i a) j (j + 1) i
    let j := scanDown (fun j => !lessAt less data j a) i j
    if i > j then (data, j)
    else partitionLoop less a fuel (swapAt data i j) (i + 1) (j - 1)

/-- Go's `partition_func(data, a, b, pivot)`: the slice, the new place of the
pivot, and whether the slice was already partitioned. -/
def partition_func {α : Type} (less : α → α → Bool) (data : List α) (a b pivot : Nat) :
    List α × Nat × Bool :=
  let data := swapAt data a pivot
  let i := scanUp (fun i => lessAt less data i a) (b - 1) b (a + 1)
  let j := scanDown (fun j => !lessAt less data j a) i (b - 1)
  if i > j then (swapAt data j a, j, true)
  else
    let r := partitionLoop less a (b - a + 1) (swapAt data i j) (i + 1) (j - 1)
    (swapAt r.1 r.2 a, r.2, false)

/-- Go's `pdqsort_func(data, a, b, limit)`.  The two booleans are the local
variables `wasBalanced` and `wasPartitioned`; one unit of the first argument
is spent on every round of the loop and on every recursive call, and `none`
is the result when it does not suffice. -/
def pdqsort_func {α : Type} (random : Nat → Nat → Nat) (less : α → α → Bool) :
    Nat → List α → Nat → Nat → Nat → Bool → Bool → Option (List α)
  | 0, _, _, _, _, _, _ => none
  | fuel + 1, data, a, b, limit, wasBalanced, wasPartitioned =>
    if b - a ≤ 12 then some (insertionSort_func less data a b)
    else if limit = 0 then some (heapSort_func less data a b)
    else
      let data := if wasBalanced then data else breakPatterns_func random data a b
      let limit := if wasBalanced then limit else limit - 1
      let chosen := choosePivot_func less data a b
      let decreasing := decide (chosen.2 = sortedHint.decreasingHint)
      let data := if decreasing then reverseRange_func data a b else data
      let pivot := if decreasing then (b - 1) - (chosen.1 - a) else chosen.1
      let hint := if decreasing then sortedHint.increasingHint else chosen.2
      let tried :=
        if wasBalanced ∧ wasPartitioned ∧ hint = sortedHint.increasingHint
        then partialInsertionSort_func less data a b else (data, false)
      if tried.2 then some tried.1
      else if 0 < a ∧ lessAt less tried.1 (a - 1) pivot = false then
        let r := partitionEqual_func less tried.1 a b pivot
        pdqsort_func random less fuel r.1 r.2 b limit wasBalanced wasPartitioned
      else
        let r := partition_func less tried.1 a b pivot
        let mid := r.2.1
        if mid - a < b - mid then
          match pdqsort_func random less fuel r.1 a mid limit true true with
          | none => none
          | some sorted =>
            pdqsort_func random less fuel sorted (mid + 1) b limit
              (decide (mid - a ≥ (b - a) / 8)) r.2.2
        else
          match pdqsort_func random less fuel r.1 (mid + 1) b limit true true with
          | none => none
          | some sorted =>
            pdqsort_func random less fuel sorted a mid limit
              (decide (b - mid ≥ (b - a) / 8)) r.2.2

/-- Go's `sort.Slice(x, less)`: `pdqsort_func` on the whole slice with the
limit `bits.Len(length)`.  Every round and every call of `pdqsort_func` works
on a shorter range than the one before, which bounds their number. -/
def sort_Slice {α : Type} (random : Nat → Nat → Nat) (less : α → α → Bool) (x : List α) :
    List α :=
  match pdqsort_func random less (x.length + 1) x 0 x.length (bitsLen x.length) true true with
  | some sorted => sorted
  | none => x

/-- A generator of pseudo-random numbers that always gives 0. -/
def noRandom : Nat → Nat → Nat :=
  fun _ _ => 0

/-- Records named `X` with the given colours, in their order. -/
def themesX (colors : List String) : List Theme :=
  colors.map (plainTheme "X")

/-- Thirteen files in the order of their names: the record of the first one
is named `Y`, the twelve others are named `X` and differ in their colours. -/
def files13 : List (String × Option WindowsTerminalTheme) :=
  [("themes/00.json", some (plainSource "Y" "000000")),
    ("themes/01.json", some (plainSource "X" "000001")),
    ("themes/02.json", some (plainSource "X" "000002")),
    ("themes/03.json", some (plainSource "X" "000003")),
    ("themes/04.json", some (plainSource "X" "000004")),
    ("themes/05.json", some (plainSource "X" "000005")),
    ("themes/06.json", some (plainSource "X" "000006")),
    ("themes/07.json", some (plainSource "X" "000007")),
    ("themes/08.json", some (plainSource "X" "000008")),
    ("themes/09.json", some (plainSource "X" "000009")),
    ("themes/10.json", some (plainSource "X" "00000a")),
    ("themes/11.json", some (plainSource "X" "00000b")),
    ("themes/12.json", some (plainSource "X" "00000c"))]

/-- The records mapped from `files13`, in the order of the files. -/
def records13 : List Theme :=
  plainTheme "Y" "#000000" ::
    themesX ["#000001", "#000002", "#000003", "#000004", "#000005", "#000006",
      "#000007", "#000008", "#000009", "#00000a", "#00000b", "#00000c"]

/-- The slice `records13` after `partition_func` with the pivot at index 6:
the pivot and the first record have changed places. -/
def partitioned13 : List Theme :=
  themesX ["#000006", "#000001", "#000002", "#000003", "#000004", "#000005"] ++
    plainTheme "Y" "#000000" ::
      themesX ["#000007", "#000008", "#000009", "#00000a", "#00000b", "#00000c"]

/-- The slice `records13` as `sort.Slice` leaves it. -/
def sorted13 : List Theme :=
  themesX ["#000006", "#000001", "#000002", "#000003", "#000004", "#000005",
      "#000007", "#000008", "#000009", "#00000a", "#00000b", "#00000c"] ++
    [plainTheme "Y" "#000000"]

/-! ## Lemmas on the accessor -/

theorem GetTheme_notFound_iff (lowerTable : Char → Char) (order : List (String × Theme))
    (q : String) :
    GetTheme lowerTable order q = (none, some Error.ErrThemeNotFound) ↔
      ∀ e ∈ order, ToLower lowerTable e.1 ≠ ToLower lowerTable q := by
  induction order with
  | nil => simp [GetTheme]
  | cons e rest ih =>
    obtain ⟨k, t⟩ := e
    by_cases h : ToLower lowerTable k = ToLower lowerTable q
    · simp [GetTheme, h]
    · simp [GetTheme, h, ih]

theorem GetTheme_found (lowerTable : Char → Char) (order : List (String × Theme))
    (q : String) (h : ∃ e ∈ order, ToLower lowerTable e.1 = ToLower lowerTable q) :
    ∃ e ∈ order, ToLower lowerTable e.1 = ToLower lowerTable q ∧
      GetTheme lowerTable order q = (some e.2, none) := by
  induction order with
  | nil => simp at h
  | cons e rest ih =>
    obtain ⟨k, t⟩ := e
    by_cases hk : ToLower lowerTable k = ToLower lowerTable q
    · exact ⟨(k, t), by simp, hk, by simp [GetTheme, hk]⟩
    · have h2 : ∃ e ∈ rest, ToLower lowerTable e.1 = ToLower lowerTable q := by
        obtain ⟨e, he, heq⟩ := h
        rcases List.mem_cons.1 he with rfl | he
        · exact absurd heq hk
        · exact ⟨e, he, heq⟩
      obtain ⟨e, he, heq, hres⟩ := ih h2
      exact ⟨e, List.mem_cons_of_mem _ he, heq, by simp [GetTheme, hk, hres]⟩

theorem ListThemes_eq_keys (order : List (String × Theme)) : ListThemes order = keys order := by
  have gen : ∀ (l : List (String × Theme)) (acc : List String),
      l.foldl (fun themes entry => themes ++ [entry.1]) acc = acc ++ l.map Prod.fst := by
    intro l
    induction l with
    | nil => simp
    | cons e rest ih => intro acc; simp [ih]
  simpa [ListThemes, keys] using gen order []

/-! ## Lemmas on the generator -/

theorem eq_empty_iff (s : String) : s = "" ↔ s.data = [] :=
  ⟨fun h => by rw [h], fun h => String.ext h⟩

theorem HasPrefix_hash (s : String) : HasPrefix s "#" = decide (s.data.head? = some '#') := by
  rcases hs : s.data with _ | ⟨a, as⟩
  · simp [HasPrefix, hs, List.isPrefixOf]
  · by_cases ha : a = '#'
    · simp [HasPrefix, hs, List.isPrefixOf, ha]
    · have ha2 : ¬ '#' = a := fun h => ha h.symm
      simp [HasPrefix, hs, List.isPrefixOf, ha, ha2]

theorem ToLower_data (lowerTable : Char → Char) (s : String) :
    (ToLower lowerTable s).data = s.data.map (unicodeToLower lowerTable) := rfl

theorem normalizeColor_data (lowerTable : Char → Char) (c : String) (hc : c ≠ "") :
    (normalizeColor lowerTable c).data =
      if (c.data.map (unicodeToLower lowerTable)).head? = some '#'
      then c.data.map (unicodeToLower lowerTable)
      else '#' :: c.data.map (unicodeToLower lowerTable) := by
  unfold normalizeColor
  rw [if_neg hc]
  simp only [HasPrefix_hash, ToLower_data]
  by_cases h : (c.data.map (unicodeToLower lowerTable)).head? = some '#'
  · rw [if_pos h, decide_eq_true h]
    rfl
  · rw [if_neg h, decide_eq_false h]
    rfl

theorem unicodeToLower_hash (lowerTable : Char → Char) : unicodeToLower lowerTable '#' = '#' := rfl

theorem unicodeToLower_ascii (lowerTable : Char → Char) (r : Char) (h : r.toNat ≤ 127) :
    unicodeToLower lowerTable r = r.toLower := by
  simp [unicodeToLower, Char.toLower, isUpperASCII, h]

theorem isLowerHexDigit_not_hash (d : Char) (h : isLowerHexDigit d = true) : d ≠ '#' := by
  rintro rfl
  revert h
  decide

theorem isHexDigit_ascii (d : Char) (h : isHexDigit d = true) : d.toNat ≤ 127 := by
  simp only [isHexDigit, Bool.or_eq_true, Bool.and_eq_true, decide_eq_true_eq] at h
  omega

theorem isLowerHexDigit_toLower (d : Char) (h : isHexDigit d = true) :
    isLowerHexDigit d.toLower = true := by
  simp only [isHexDigit, Bool.or_eq_true, Bool.and_eq_true, decide_eq_true_eq] at h
  rcases h with (h | h) | h
  · have hl : d.toLower = d := by
      simp only [Char.toLower]
      rw [if_neg (by omega)]
    rw [hl]
    simp only [isLowerHexDigit, Bool.or_eq_true, Bool.and_eq_true, decide_eq_true_eq]
    omega
  · have hl : d.toLower = d := by
      simp only [Char.toLower]
      rw [if_neg (by omega)]
    rw [hl]
    simp only [isLowerHexDigit, Bool.or_eq_true, Bool.and_eq_true, decide_eq_true_eq]
    omega
  · have hd : d = Char.ofNat d.toNat := (Char.ofNat_toNat d).symm
    obtain ⟨h1, h2⟩ := h
    generalize d.toNat = n at hd h1 h2
    subst hd
    interval_cases n <;> decide

theorem unicodeToLower_hex (lowerTable : Char → Char) (ds : List Char)
    (h : ∀ d ∈ ds, isHexDigit d = true) :
    ds.map (unicodeToLower lowerTable) = ds.map Char.toLower :=
  List.map_congr_left fun d hd => unicodeToLower_ascii lowerTable d (isHexDigit_ascii d (h d hd))

theorem sixOf_iff (p : Char → Bool) (ds : List Char) :
    sixOf p ds = true ↔ ds.length = 6 ∧ ∀ d ∈ ds, p d = true := by
  simp [sixOf]

theorem sixOf_toLower (ds : List Char) (h : sixOf isHexDigit ds = true) :
    sixOf isLowerHexDigit (ds.map Char.toLower) = true := by
  rw [sixOf_iff] at h ⊢
  refine ⟨by simpa using h.1, ?_⟩
  intro d hd
  obtain ⟨d0, hd0, rfl⟩ := List.mem_map.1 hd
  exact isLowerHexDigit_toLower d0 (h.2 d0 hd0)

theorem normalizeColor_digits (lowerTable : Char → Char) (ds : List Char)
    (h : sixOf isHexDigit ds = true) :
    normalizeColor lowerTable ⟨ds⟩ = ⟨'#' :: ds.map Char.toLower⟩ ∧
      normalizeColor lowerTable ⟨'#' :: ds⟩ = ⟨'#' :: ds.map Char.toLower⟩ := by
  have hlow := sixOf_toLower ds h
  have hmap := unicodeToLower_hex lowerTable ds ((sixOf_iff _ _).1 h).2
  have hlen : ds.length = 6 := ((sixOf_iff _ _).1 h).1
  constructor
  · have hne : (⟨ds⟩ : String) ≠ "" := by
      rw [Ne, eq_empty_iff]
      intro h0
      change ds = [] at h0
      rw [h0] at hlen
      simp at hlen
    apply String.ext
    rw [normalizeColor_data lowerTable _ hne]
    change (if (ds.map (unicodeToLower lowerTable)).head? = some '#' then _ else _) = _
    rw [hmap]
    have hhead : ¬ (ds.map Char.toLower).head? = some '#' := by
      intro hh
      rcases hl : ds.map Char.toLower with _ | ⟨a, as⟩
      · rw [hl] at hh
        simp at hh
      · rw [hl] at hh hlow
        simp only [List.head?_cons, Option.some.injEq] at hh
        have := ((sixOf_iff _ _).1 hlow).2 a (by simp)
        exact isLowerHexDigit_not_hash a this hh
    rw [if_neg hhead]
  · have hne : (⟨'#' :: ds⟩ : String) ≠ "" := by
      rw [Ne, eq_empty_iff]
      intro h0
      change '#' :: ds = [] at h0
      simp at h0
    apply String.ext
    rw [normalizeColor_data lowerTable _ hne]
    change (if (('#' :: ds).map (unicodeToLower lowerTable)).head? = some '#' then _ else _) = _
    rw [List.map_cons, unicodeToLower_hash, hmap]
    simp

theorem isCanonicalHex_digits (ds : List Char) (h : sixOf isLowerHexDigit ds = true) :
    isCanonicalHex ⟨'#' :: ds⟩ = true := by
  simp [isCanonicalHex, h]

theorem normalizeColor_triplet (lowerTable : Char → Char) (c : String)
    (h : c = "" ∨ isHexTriplet c = true) :
    isCanonicalHex (normalizeColor lowerTable c) = true := by
  rcases h with rfl | h
  · rfl
  · unfold isHexTriplet at h
    rcases hc : c.data with _ | ⟨a, as⟩
    · rw [hc] at h
      simp [dropHash, sixOf] at h
    · rw [hc] at h
      have hcs : c = ⟨a :: as⟩ := String.ext hc
      by_cases ha : a = '#'
      · simp only [dropHash, if_pos ha] at h
        rw [hcs, ha, (normalizeColor_digits lowerTable as h).2]
        exact isCanonicalHex_digits _ (sixOf_toLower as h)
      · simp only [dropHash, if_neg ha] at h
        rw [hcs, (normalizeColor_digits lowerTable (a :: as) h).1]
        exact isCanonicalHex_digits _ (sixOf_toLower (a :: as) h)

theorem parseThemesEntry_colors (lowerTable : Char → Char) (file : String)
    (w : WindowsTerminalTheme) :
    (parseThemesEntry lowerTable file w).colors = w.colors.map (normalizeColor lowerTable) := rfl

theorem Base_join (dir b : String) (hb : b.data ≠ []) (hsep : ∀ c ∈ b.data, c ≠ '/') :
    Base (dir ++ "/" ++ b) = b := by
  have hdata : (dir ++ "/" ++ b).data = dir.data ++ '/' :: b.data := by
    simp [String.data_append]
  have hne : dir ++ "/" ++ b ≠ "" := by
    rw [Ne, eq_empty_iff, hdata]
    simp
  unfold Base
  rw [if_neg hne, hdata]
  have hrev : (dir.data ++ '/' :: b.data).reverse = b.data.reverse ++ '/' :: dir.data.reverse := by
    simp
  rw [hrev]
  have hsep2 : ∀ c ∈ b.data.reverse, (!isPathSeparator c) = true := by
    intro c hc
    simp [isPathSeparator, hsep c (List.mem_reverse.1 hc)]
  have hdrop : (b.data.reverse ++ '/' :: dir.data.reverse).dropWhile isPathSeparator =
      b.data.reverse ++ '/' :: dir.data.reverse := by
    rcases hr : b.data.reverse with _ | ⟨x, xs⟩
    · exact absurd (List.reverse_eq_nil_iff.1 hr) hb
    · have hx := hsep2 x (by rw [hr]; simp)
      simp only [Bool.not_eq_true', ] at hx
      simp [List.dropWhile, hx]
  simp only [hdrop]
  rw [List.takeWhile_append_of_pos hsep2]
  have htake : List.takeWhile (fun c => !isPathSeparator c) ('/' :: dir.data.reverse) = [] := by
    simp [List.takeWhile, isPathSeparator]
  rw [htake, List.append_nil]
  have hnil : ¬ b.data.reverse = [] := fun h => hb (List.reverse_eq_nil_iff.1 h)
  rw [if_neg hnil, List.reverse_reverse]

theorem TrimSuffix_append (s suf : String) : TrimSuffix (s ++ suf) suf = s := by
  unfold TrimSuffix HasSuffix
  have h : suf.data.isSuffixOf (s ++ suf).data = true := by
    rw [List.isSuffixOf_iff_suffix, String.data_append]
    exact List.suffix_append _ _
  rw [if_pos h]
  apply String.ext
  simp [String.data_append]

theorem normalizeColor_head (lowerTable : Char → Char) (c : String) :
    (normalizeColor lowerTable c).data.head? = some '#' := by
  by_cases hc : c = ""
  · rw [hc]
    rfl
  · rw [normalizeColor_data lowerTable c hc]
    by_cases h : (c.data.map (unicodeToLower lowerTable)).head? = some '#'
    · rw [if_pos h]
      exact h
    · rw [if_neg h]
      rfl

theorem normalizeColor_ne_empty (lowerTable : Char → Char) (c : String) :
    normalizeColor lowerTable c ≠ "" := by
  intro h
  have hh := normalizeColor_head lowerTable c
  rw [h] at hh
  exact absurd hh (by decide)

theorem unicodeToLower_not_upper (lowerTable : Char → Char)
    (hupper : ∀ r : Char, 127 < r.toNat → isUpperASCII (lowerTable r) = false) (x : Char) :
    isUpperASCII (unicodeToLower lowerTable x) = false := by
  unfold unicodeToLower
  by_cases h : x.toNat ≤ 127
  · rw [if_pos h]
    by_cases hu : isUpperASCII x = true
    · rw [if_pos hu]
      have hd : x = Char.ofNat x.toNat := (Char.ofNat_toNat x).symm
      simp only [isUpperASCII, Bool.and_eq_true, decide_eq_true_eq] at hu
      obtain ⟨h1, h2⟩ := hu
      generalize x.toNat = n at hd h1 h2
      interval_cases n <;> rfl
    · rw [if_neg hu]
      simpa using hu
  · rw [if_neg h]
    exact hupper x (by omega)

/-! ## Lemmas on the order of names and on sorting -/

theorem Char_toNat_inj (x y : Char) (h : x.toNat = y.toNat) : x = y := by
  rw [← Char.ofNat_toNat x, ← Char.ofNat_toNat y, h]

theorem runesLess_irrefl : ∀ a : List Char, runesLess a a = false
  | [] => rfl
  | x :: xs => by
    simp [runesLess, runesLess_irrefl xs]

theorem runesLess_trans : ∀ a b c : List Char,
    runesLess a b = true → runesLess b c = true → runesLess a c = true
  | _, [], _ => by simp [runesLess]
  | _, _ :: _, [] => by simp [runesLess]
  | [], _ :: _, _ :: _ => by simp [runesLess]
  | x :: xs, y :: ys, z :: zs => by
    simp only [runesLess, Bool.or_eq_true, Bool.and_eq_true, decide_eq_true_eq]
    intro h1 h2
    rcases h1 with h1 | ⟨h1, h1r⟩ <;> rcases h2 with h2 | ⟨h2, h2r⟩
    · left; omega
    · left; omega
    · left; omega
    · right
      exact ⟨by omega, runesLess_trans xs ys zs h1r h2r⟩

theorem runesLess_connected : ∀ a b : List Char,
    runesLess a b = false → runesLess b a = false → a = b
  | [], [] => fun _ _ => rfl
  | [], _ :: _ => by simp [runesLess]
  | _ :: _, [] => by simp [runesLess]
  | x :: xs, y :: ys => by
    intro h1 h2
    have hxy : x.toNat = y.toNat := by
      by_contra hne
      rcases Nat.lt_or_gt_of_ne hne with hlt | hgt
      · simp [runesLess, hlt] at h1
      · simp [runesLess, hgt] at h2
    have h1r : runesLess xs ys = false := by
      simpa [runesLess, hxy] using h1
    have h2r : runesLess ys xs = false := by
      simpa [runesLess, hxy] using h2
    rw [Char_toNat_inj x y hxy, runesLess_connected xs ys h1r h2r]

theorem stringLess_irrefl (a : String) : stringLess a a = false :=
  runesLess_irrefl a.data

theorem stringLess_trans (a b c : String) (h1 : stringLess a b = true)
    (h2 : stringLess b c = true) : stringLess a c = true :=
  runesLess_trans a.data b.data c.data h1 h2

theorem stringLess_connected (a b : String) (h1 : stringLess a b = false)
    (h2 : stringLess b a = false) : a = b :=
  String.ext (runesLess_connected a.data b.data h1 h2)

theorem stringLess_asymm (a b : String) (h : stringLess a b = true) : stringLess b a = false := by
  by_contra h2
  have h3 := stringLess_trans a b a h (by simpa using h2)
  rw [stringLess_irrefl] at h3
  exact absurd h3 (by decide)

theorem stringLess_negTrans (a b c : String) (h1 : stringLess a b = false)
    (h2 : stringLess b c = false) : stringLess a c = false := by
  by_contra h3
  have hac : stringLess a c = true := by simpa using h3
  by_cases hba : stringLess b a = true
  · rw [stringLess_trans b a c hba hac] at h2
    exact absurd h2 (by decide)
  · have hab : a = b := stringLess_connected a b h1 (by simpa using hba)
    rw [hab, h2] at hac
    exact absurd hac (by decide)

theorem nameLess_ordering :
    isTransitiveOrdering (fun a b : Theme => stringLess a.Name b.Name) :=
  ⟨fun a => stringLess_irrefl a.Name,
    fun a b c => stringLess_trans a.Name b.Name c.Name,
    fun a b c => stringLess_negTrans a.Name b.Name c.Name⟩

theorem insertionSortSlice_contract : sortSliceContract insertionSortSlice := by
  intro less l
  refine ⟨List.perm_insertionSort _ l, ?_⟩
  rintro ⟨hirr, htrans, hneg⟩
  haveI : IsTotal Theme (fun a b => less b a = false) := ⟨by
    intro a b
    by_cases h : less b a = true
    · right
      by_contra h2
      have h3 := htrans a b a (by simpa using h2) h
      rw [hirr] at h3
      exact absurd h3 (by decide)
    · left
      simpa using h⟩
  haveI : IsTrans Theme (fun a b => less b a = false) := ⟨fun a b c h1 h2 => hneg c b a h2 h1⟩
  exact List.sorted_insertionSort (fun a b => less b a = false) l

theorem parseThemesLoop_eq (lowerTable : Char → Char)
    (files : List (String × Option WindowsTerminalTheme)) :
    parseThemesLoop lowerTable files =
      files.filterMap (fun item => item.2.map (parseThemesEntry lowerTable item.1)) := by
  have gen : ∀ (l : List (String × Option WindowsTerminalTheme)) (acc : List Theme),
      l.foldl
        (fun themes item =>
          match item.2 with
          | none => themes
          | some wtTheme => themes ++ [parseThemesEntry lowerTable item.1 wtTheme])
        acc =
      acc ++ l.filterMap (fun item => item.2.map (parseThemesEntry lowerTable item.1)) := by
    intro l
    induction l with
    | nil => simp
    | cons e rest ih =>
      intro acc
      obtain ⟨f, o⟩ := e
      cases o with
      | none => simp [ih]
      | some w => simp [ih]
  simpa [parseThemesLoop] using gen files []

theorem parseThemesLoop_perm (lowerTable : Char → Char)
    (files1 files2 : List (String × Option WindowsTerminalTheme)) (h : files1.Perm files2) :
    (parseThemesLoop lowerTable files1).Perm (parseThemesLoop lowerTable files2) := by
  rw [parseThemesLoop_eq, parseThemesLoop_eq]
  exact h.filterMap _

theorem parseThemes_perm (lowerTable : Char → Char)
    (sortSlice : (Theme → Theme → Bool) → List Theme → List Theme)
    (hsort : sortSliceContract sortSlice)
    (files : List (String × Option WindowsTerminalTheme)) :
    (parseThemes lowerTable sortSlice files).Perm (parseThemesLoop lowerTable files) :=
  (hsort _ _).1

theorem parseThemes_sorted (lowerTable : Char → Char)
    (sortSlice : (Theme → Theme → Bool) → List Theme → List Theme)
    (hsort : sortSliceContract sortSlice)
    (files : List (String × Option WindowsTerminalTheme)) :
    (parseThemes lowerTable sortSlice files).Pairwise
      (fun a b => stringLess b.Name a.Name = false) :=
  (hsort _ _).2 nameLess_ordering

theorem strict_of_sorted_nodup (l : List Theme)
    (hs : l.Pairwise (fun a b => stringLess b.Name a.Name = false))
    (hn : (l.map Theme.Name).Nodup) :
    l.Pairwise (fun a b => stringLess a.Name b.Name = true) := by
  have hne : l.Pairwise (fun a b => a.Name ≠ b.Name) := List.pairwise_map.1 hn
  refine (hs.and hne).imp ?_
  rintro a b ⟨h1, h2⟩
  by_contra h3
  exact h2 (stringLess_connected a.Name b.Name (by simpa using h3) h1)

theorem goLiteralBody_plain : ∀ cs : List Char,
    (∀ c ∈ cs, c ≠ Char.ofNat 34 ∧ c ≠ Char.ofNat 92 ∧ c ≠ Char.ofNat 10) →
    goLiteralBody cs = some cs
  | [], _ => rfl
  | c :: rest, h => by
    obtain ⟨h1, h2, h3⟩ := h c (by simp)
    have hrest := goLiteralBody_plain rest (fun d hd => h d (List.mem_cons_of_mem _ hd))
    rw [goLiteralBody.eq_def]
    simp only [if_neg h2, if_neg h1, if_neg h3, hrest]
    rfl

theorem templateQuote_data (value : String) :
    (templateQuote value).data = Char.ofNat 34 :: (value.data ++ [Char.ofNat 34]) := by
  simp only [templateQuote, String.data_append]
  rfl

theorem goStringLiteral_plain (name : String)
    (h : ∀ c ∈ name.data, c ≠ Char.ofNat 34 ∧ c ≠ Char.ofNat 92 ∧ c ≠ Char.ofNat 10) :
    goStringLiteral (templateQuote name) = some name := by
  unfold goStringLiteral
  rw [templateQuote_data]
  have hlast : (name.data ++ [Char.ofNat 34]).getLast? = some (Char.ofNat 34) := by
    simp
  have hdrop : (name.data ++ [Char.ofNat 34]).dropLast = name.data := by
    simp
  simp only [hlast, hdrop, and_self, if_true, goLiteralBody_plain name.data h, Option.map_some']

theorem withName_swap_adjacent (n : String) : ∀ (j : Nat) (data : List Theme) (x y : Theme),
    data[j]? = some y → data[j + 1]? = some x → x.Name ≠ y.Name →
    withName n ((data.set (j + 1) y).set j x) = withName n data
  | 0, [], _, _ => by simp
  | 0, [_], _, _ => by simp
  | 0, d :: e :: rest, x, y => by
    intro hy hx hne
    have hd : d = y := by simpa using hy
    have he : e = x := by simpa using hx
    subst hd he
    by_cases h1 : d.Name = n
    · have h2 : ¬ e.Name = n := fun h => hne (h.trans h1.symm)
      simp [withName, List.filter_cons, h1, h2]
    · simp [withName, List.filter_cons, h1]
  | j + 1, [], _, _ => by simp
  | j + 1, d :: rest, x, y => by
    intro hy hx hne
    have hy2 : rest[j]? = some y := by simpa using hy
    have hx2 : rest[j + 1]? = some x := by simpa using hx
    have ih := withName_swap_adjacent n j rest x y hy2 hx2 hne
    simp only [withName] at ih
    simp [withName, List.filter_cons, ih]

theorem swapAt_nameLess_withName (n : String) (data : List Theme) (j : Nat)
    (h : lessAt (fun a b : Theme => stringLess a.Name b.Name) data (j + 1) j = true) :
    withName n (swapAt data (j + 1) j) = withName n data := by
  unfold lessAt at h
  unfold swapAt
  rcases hx : data[j + 1]? with _ | x
  · rw [hx] at h
  · rcases hy : data[j]? with _ | y
    · rw [hx, hy] at h
    · rw [hx, hy] at h
      have hlt : stringLess x.Name y.Name = true := h
      have hne : x.Name ≠ y.Name := by
        intro heq
        rw [heq, stringLess_irrefl] at hlt
        exact absurd hlt (by decide)
      exact withName_swap_adjacent n j data x y hy hx hne

theorem insertionSortInner_withName (n : String) (a : Nat) : ∀ (j : Nat) (data : List Theme),
    withName n (insertionSortInner (fun a b : Theme => stringLess a.Name b.Name) a j data) =
      withName n data
  | 0, _ => rfl
  | j + 1, data => by
    unfold insertionSortInner
    split
    · rename_i h
      rw [insertionSortInner_withName n a j, swapAt_nameLess_withName n data j h.2]
    · rfl

theorem insertionSort_func_withName (n : String) (data : List Theme) (a b : Nat) :
    withName n (insertionSort_func (fun a b : Theme => stringLess a.Name b.Name) data a b) =
      withName n data := by
  unfold insertionSort_func
  generalize List.range' (a + 1) (b - (a + 1)) = steps
  induction steps generalizing data with
  | nil => rfl
  | cons i rest ih =>
    rw [List.foldl_cons, ih, insertionSortInner_withName]

theorem sort_Slice_short {α : Type} (random : Nat → Nat → Nat) (less : α → α → Bool)
    (x : List α) (h : x.length ≤ 12) :
    sort_Slice random less x = insertionSort_func less x 0 x.length := by
  unfold sort_Slice
  rw [pdqsort_func]
  simp [h]

theorem pdqsort_func_short {α : Type} (random : Nat → Nat → Nat) (less : α → α → Bool)
    (fuel : Nat) (data : List α) (a b limit : Nat) (wasBalanced wasPartitioned : Bool)
    (h : b - a ≤ 12) :
    pdqsort_func random less (fuel + 1) data a b limit wasBalanced wasPartitioned =
      some (insertionSort_func less data a b) := by
  rw [pdqsort_func]
  simp [h]

theorem pdqsort_func_one_partition {α : Type} (random : Nat → Nat → Nat)
    (less : α → α → Bool) (fuel : Nat) (data parted : List α) (b limit pivot mid : Nat)
    (already : Bool) (hlen : 12 < b) (hlimit : limit ≠ 0)
    (hpivot : choosePivot_func less data 0 b = (pivot, sortedHint.increasingHint))
    (htried : partialInsertionSort_func less data 0 b = (data, false))
    (hpart : partition_func less data 0 b pivot = (parted, mid, already))
    (hleft : mid < b - mid) (hshort : b - (mid + 1) ≤ 12) :
    pdqsort_func random less (fuel + 2) data 0 b limit true true =
      some (insertionSort_func less (insertionSort_func less parted 0 mid) (mid + 1) b) := by
  have hmid : mid - 0 ≤ 12 := by omega
  have hnot : ¬ b ≤ 12 := by omega
  have hdec : decide (sortedHint.increasingHint = sortedHint.decreasingHint) = false := rfl
  rw [pdqsort_func]
  simp only [Nat.sub_zero, hnot, hlimit, hpivot, hdec, Bool.false_eq_true, if_false, if_true,
    and_self, htried, hpart, Nat.lt_irrefl, false_and, hleft,
    pdqsort_func_short random less fuel parted 0 mid limit true true hmid]
  exact pdqsort_func_short random less fuel _ (mid + 1) b limit _ _ hshort

theorem sort_Slice_of_pdqsort {α : Type} (random : Nat → Nat → Nat) (less : α → α → Bool)
    (x sorted : List α) (n limit : Nat) (hn : x.length = n) (hlimit : bitsLen n = limit)
    (h : pdqsort_func random less (n + 1) x 0 n limit true true = some sorted) :
    sort_Slice random less x = sorted := by
  unfold sort_Slice
  rw [hn, hlimit, h]

theorem sort_Slice_records13 (random : Nat → Nat → Nat) :
    sort_Slice random (fun a b : Theme => stringLess a.Name b.Name) records13 = sorted13 := by
  have h := pdqsort_func_one_partition random (fun a b : Theme => stringLess a.Name b.Name)
    12 records13 partitioned13 13 4 6 0 true (by decide) (by decide) (by decide) (by decide)
    (by decide) (by decide) (by decide)
  have hsort : insertionSort_func (fun a b : Theme => stringLess a.Name b.Name)
      (insertionSort_func (fun a b : Theme => stringLess a.Name b.Name) partitioned13 0 0)
      (0 + 1) 13 = sorted13 := by decide
  rw [hsort] at h
  exact sort_Slice_of_pdqsort random _ records13 sorted13 13 4 rfl (by decide) h

/-! ## Claims on the accessor -/

/-- C1: for every catalog, every order in which the map is iterated and every
query `q`, `GetTheme q` is `(nil, ErrThemeNotFound)` exactly when no catalog
key has the same lower-case form as `q`; otherwise the error is nil and the
theme is a record (non-nil). -/
theorem C1_GetTheme_notFound_iff (lowerTable : Char → Char)
    (allThemes order : List (String × Theme)) (q : String) (horder : order.Perm allThemes) :
    (GetTheme lowerTable order q = (none, some Error.ErrThemeNotFound) ↔
        ¬ ∃ k ∈ keys allThemes, ToLower lowerTable k = ToLower lowerTable q) ∧
      ((∃ k ∈ keys allThemes, ToLower lowerTable k = ToLower lowerTable q) →
        ∃ t, GetTheme lowerTable order q = (some t, none)) := by
  have hmem : (∃ k ∈ keys allThemes, ToLower lowerTable k = ToLower lowerTable q) ↔
      ∃ e ∈ order, ToLower lowerTable e.1 = ToLower lowerTable q := by
    constructor
    · rintro ⟨k, hk, heq⟩
      obtain ⟨e, he, rfl⟩ := List.mem_map.1 hk
      exact ⟨e, horder.mem_iff.2 he, heq⟩
    · rintro ⟨e, he, heq⟩
      exact ⟨e.1, List.mem_map.2 ⟨e, horder.mem_iff.1 he, rfl⟩, heq⟩
  refine ⟨?_, ?_⟩
  · rw [GetTheme_notFound_iff, hmem]
    simp
  · intro h
    obtain ⟨e, _, _, hres⟩ := GetTheme_found lowerTable order q (hmem.1 h)
    exact ⟨e.2, hres⟩


/-- Witness of C1 on a two-entry catalog iterated in the opposite order. -/
theorem C1_GetTheme_notFound_iff_witness :
    orderBA.Perm catalogAB ∧
      ((GetTheme asciiOnly orderBA "NonExistentTheme12345" = (none, some Error.ErrThemeNotFound) ↔
          ¬ ∃ k ∈ keys catalogAB, ToLower asciiOnly k = ToLower asciiOnly "NonExistentTheme12345") ∧
        ((∃ k ∈ keys catalogAB, ToLower asciiOnly k = ToLower asciiOnly "NonExistentTheme12345") →
          ∃ t, GetTheme asciiOnly orderBA "NonExistentTheme12345" = (some t, none))) :=
  ⟨List.Perm.swap _ _ _,
    C1_GetTheme_notFound_iff asciiOnly catalogAB orderBA "NonExistentTheme12345"
      (List.Perm.swap _ _ _)⟩

/-- C2: in a catalog whose keys are pairwise distinct after lower-casing and
in which every record is stored under its own `Name`, for every record `t` of
the catalog and every query `q` with `ToLower q = ToLower t.Name`, `GetTheme q`
returns `t` with a nil error in every iteration order; hence two case variants
`q`, `q2` of one name give the same result, also across iteration orders. -/
theorem C2_GetTheme_case_variant (lowerTable : Char → Char)
    (allThemes order order2 : List (String × Theme)) (t : Theme) (q q2 : String)
    (hdistinct : ((keys allThemes).map (ToLower lowerTable)).Nodup)
    (hname : ∀ e ∈ allThemes, e.2.Name = e.1)
    (horder : order.Perm allThemes) (horder2 : order2.Perm allThemes)
    (ht : t ∈ allThemes.map Prod.snd)
    (hq : ToLower lowerTable q = ToLower lowerTable t.Name)
    (hq2 : ToLower lowerTable q2 = ToLower lowerTable t.Name) :
    GetTheme lowerTable order q = (some t, none) ∧
      GetTheme lowerTable order2 q2 = GetTheme lowerTable order q := by
  have key : ∀ (o : List (String × Theme)) (x : String), o.Perm allThemes →
      ToLower lowerTable x = ToLower lowerTable t.Name →
      GetTheme lowerTable o x = (some t, none) := by
    intro o x ho hx
    obtain ⟨e0, he0, rfl⟩ := List.mem_map.1 ht
    have hk0 : e0.2.Name = e0.1 := hname e0 he0
    have hex : ∃ e ∈ o, ToLower lowerTable e.1 = ToLower lowerTable x :=
      ⟨e0, ho.mem_iff.2 he0, by rw [hx, hk0]⟩
    obtain ⟨e, he, heq, hres⟩ := GetTheme_found lowerTable o x hex
    have hinj : (allThemes.map (fun e => ToLower lowerTable e.1)).Nodup := by
      simpa [keys, List.map_map, Function.comp_def] using hdistinct
    have hee : e = e0 :=
      List.inj_on_of_nodup_map hinj (ho.mem_iff.1 he) he0 (by rw [heq, hx, hk0])
    rw [hres, hee]
  exact ⟨key order q horder hq, by rw [key order2 q2 horder2 hq2, key order q horder hq]⟩

/-- Witness of C2: `"DRACULA"` and `"dracula"` on the two-entry catalog, under
two iteration orders. -/
theorem C2_GetTheme_case_variant_witness :
    GetTheme asciiOnly orderBA "DRACULA" = (some (plainTheme "Dracula" "#282a36"), none) ∧
      GetTheme asciiOnly catalogAB "dracula" = GetTheme asciiOnly orderBA "DRACULA" :=
  C2_GetTheme_case_variant asciiOnly catalogAB orderBA catalogAB
    (plainTheme "Dracula" "#282a36") "DRACULA" "dracula"
    (by decide) (by decide) (List.Perm.swap _ _ _) (List.Perm.refl _) (by decide)
    (by decide) (by decide)

/-- C3: for every catalog (a map, so with pairwise distinct keys) and every
iteration order, `ListThemes` is a rearrangement of the catalog keys without
repetition: a name is in it exactly when it is a key, every key occurs exactly
once, its length is the number of entries, and it is non-empty when the
catalog is. -/
theorem C3_ListThemes_keys_once (allThemes order : List (String × Theme))
    (hkeys : (keys allThemes).Nodup) (horder : order.Perm allThemes) :
    (ListThemes order).Perm (keys allThemes) ∧
      (∀ k, k ∈ ListThemes order ↔ k ∈ keys allThemes) ∧
      (∀ k ∈ keys allThemes, (ListThemes order).count k = 1) ∧
      (ListThemes order).length = len allThemes ∧
      (allThemes ≠ [] → ListThemes order ≠ []) := by
  have hperm : (ListThemes order).Perm (keys allThemes) := by
    rw [ListThemes_eq_keys]
    exact horder.map Prod.fst
  refine ⟨hperm, fun k => hperm.mem_iff, ?_, ?_, ?_⟩
  · intro k hk
    rw [hperm.count_eq]
    exact List.count_eq_one_of_mem hkeys hk
  · rw [hperm.length_eq]
    simp [keys, len]
  · intro hne hnil
    have hlen := hperm.length_eq
    rw [hnil] at hlen
    simp [keys] at hlen
    exact hne (List.length_eq_zero.1 hlen.symm)

/-- Witness of C3 on the two-entry catalog iterated in the opposite order. -/
theorem C3_ListThemes_keys_once_witness :
    (ListThemes orderBA).Perm (keys catalogAB) ∧
      (∀ k, k ∈ ListThemes orderBA ↔ k ∈ keys catalogAB) ∧
      (∀ k ∈ keys catalogAB, (ListThemes orderBA).count k = 1) ∧
      (ListThemes orderBA).length = len catalogAB ∧
      (catalogAB ≠ [] → ListThemes orderBA ≠ []) :=
  C3_ListThemes_keys_once catalogAB orderBA (by decide) (List.Perm.swap _ _ _)

/-- C4 (evaluation at the failing input): the catalog with keys `"Dracula"` and
`"Nord"`, visited `"Nord"` first, makes `ListThemes` return `["Nord", "Dracula"]`,
which is not in ascending order. -/
theorem C4_ListThemes_not_sorted :
    (keys catalogAB).Nodup ∧ orderBA.Perm catalogAB ∧
      ListThemes orderBA = ["Nord", "Dracula"] ∧ ¬ isAscending (ListThemes orderBA) := by
  refine ⟨by decide, List.Perm.swap _ _ _, by decide, ?_⟩
  have h : ListThemes orderBA = ["Nord", "Dracula"] := by decide
  rw [h]
  simp only [isAscending, List.pairwise_cons]
  intro hasc
  have h2 := hasc.1 "Dracula" (by simp)
  revert h2
  decide

/-- C5: `GetAllThemes` returns the catalog mapping itself, so indexing it gives
what indexing the catalog gives; and in every iteration order the length of
`ListThemes` is the number of entries of `GetAllThemes`, and a name is in
`ListThemes` exactly when it is a key of `GetAllThemes`. -/
theorem C5_ListThemes_GetAllThemes (allThemes order : List (String × Theme))
    (horder : order.Perm allThemes) :
    GetAllThemes allThemes = allThemes ∧
      (∀ k, index (GetAllThemes allThemes) k = index allThemes k) ∧
      (ListThemes order).length = len (GetAllThemes allThemes) ∧
      (∀ name, name ∈ ListThemes order ↔ (index (GetAllThemes allThemes) name).isSome = true) := by
  refine ⟨rfl, fun _ => rfl, ?_, ?_⟩
  · rw [ListThemes_eq_keys]
    simp [keys, len, GetAllThemes, horder.length_eq]
  · intro name
    rw [ListThemes_eq_keys]
    simp only [keys, GetAllThemes, index, Option.isSome_map', List.find?_isSome, List.mem_map,
      decide_eq_true_eq]
    constructor
    · rintro ⟨e, he, rfl⟩
      exact ⟨e, horder.mem_iff.1 he, rfl⟩
    · rintro ⟨e, he, rfl⟩
      exact ⟨e, horder.mem_iff.2 he, rfl⟩

/-- Witness of C5 on the two-entry catalog iterated in the opposite order. -/
theorem C5_ListThemes_GetAllThemes_witness :
    GetAllThemes catalogAB = catalogAB ∧
      (∀ k, index (GetAllThemes catalogAB) k = index catalogAB k) ∧
      (ListThemes orderBA).length = len (GetAllThemes catalogAB) ∧
      (∀ name, name ∈ ListThemes orderBA ↔ (index (GetAllThemes catalogAB) name).isSome = true) :=
  C5_ListThemes_GetAllThemes catalogAB orderBA (List.Perm.swap _ _ _)

/-! ## Claims on the normaliser -/

/-- C6: `normalizeColor` equals its reference definition on every input:
`"#000000"` for the empty string, and for a non-empty `c` the lower-cased `c`
when that starts with `#` and `#` followed by the lower-cased `c` otherwise;
in particular `"#ABCDEF"` and `"abcdef"` both give `"#abcdef"`. -/
theorem C6_normalizeColor_reference (lowerTable : Char → Char) :
    (∀ c, normalizeColor lowerTable c = normalizeColorRef lowerTable c) ∧
      normalizeColor lowerTable "" = "#000000" ∧
      normalizeColor lowerTable "#ABCDEF" = "#abcdef" ∧
      normalizeColor lowerTable "abcdef" = "#abcdef" := by
  refine ⟨?_, rfl, rfl, rfl⟩
  intro c
  by_cases hc : c = ""
  · simp [normalizeColor, normalizeColorRef, hc]
  · apply String.ext
    rw [normalizeColor_data lowerTable c hc]
    unfold normalizeColorRef
    rw [if_neg hc]
    rw [ToLower_data]
    by_cases h : (c.data.map (unicodeToLower lowerTable)).head? = some '#'
    · rw [if_pos h, if_pos h, ToLower_data]
    · rw [if_neg h, if_neg h]

/-- C7: `normalizeColor` is idempotent on every string, `unicode.ToLower`
being idempotent on runes (as the Unicode case tables make it). -/
theorem C7_normalizeColor_idempotent (lowerTable : Char → Char)
    (hidem : ∀ r, unicodeToLower lowerTable (unicodeToLower lowerTable r) =
      unicodeToLower lowerTable r) (x : String) :
    normalizeColor lowerTable (normalizeColor lowerTable x) = normalizeColor lowerTable x := by
  by_cases hx : x = ""
  · rw [hx]
    rfl
  · have hmm : ∀ l : List Char, (l.map (unicodeToLower lowerTable)).map (unicodeToLower lowerTable) =
        l.map (unicodeToLower lowerTable) := by
      intro l
      rw [List.map_map]
      exact List.map_congr_left fun r _ => hidem r
    have hdata := normalizeColor_data lowerTable x hx
    have hne : normalizeColor lowerTable x ≠ "" := by
      rw [Ne, eq_empty_iff, hdata]
      have hx2 : x.data ≠ [] := fun h => hx ((eq_empty_iff x).2 h)
      split
      · simpa using hx2
      · simp
    apply String.ext
    rw [normalizeColor_data lowerTable _ hne, hdata]
    by_cases h : (x.data.map (unicodeToLower lowerTable)).head? = some '#'
    · rw [if_pos h, hmm, if_pos h]
    · rw [if_neg h, List.map_cons, unicodeToLower_hash, hmm]
      simp

/-- Witness of C7: the case table that changes no rune above `MaxASCII`, at the
input `"Ab#C"`. -/
theorem C7_normalizeColor_idempotent_witness :
    normalizeColor asciiOnly (normalizeColor asciiOnly "Ab#C") = normalizeColor asciiOnly "Ab#C" :=
  C7_normalizeColor_idempotent asciiOnly
    (by
      intro r
      by_cases h : r.toNat ≤ 127
      · by_cases hu : isUpperASCII r = true
        · have hd : r = Char.ofNat r.toNat := (Char.ofNat_toNat r).symm
          simp only [isUpperASCII, Bool.and_eq_true, decide_eq_true_eq] at hu
          obtain ⟨h1, h2⟩ := hu
          generalize r.toNat = n at hd h1 h2
          subst hd
          interval_cases n <;> rfl
        · simp [unicodeToLower, h, hu]
      · simp [unicodeToLower, h, asciiOnly])
    "Ab#C"

/-- C8 (counterexample): `normalizeColor "red"` is `"#red"`, four characters,
and `normalizeColor "#GGGGGG"` is `"#gggggg"`, seven characters that are not
hexadecimal digits; neither is a canonical hex colour, and a source record
whose colours are all `"red"` is mapped to a record whose `Foreground` is not
one. -/
theorem C8_normalizeColor_not_canonical :
    (∀ lowerTable, normalizeColor lowerTable "red" = "#red") ∧
      isCanonicalHex "#red" = false ∧
      (∀ lowerTable, normalizeColor lowerTable "#GGGGGG" = "#gggggg") ∧
      isCanonicalHex "#gggggg" = false ∧
      (∀ lowerTable, isCanonicalHex
        (parseThemesEntry lowerTable "red.json" (plainSource "Red" "red")).Foreground = false) :=
  ⟨fun _ => rfl, by decide, fun _ => rfl, by decide, fun _ => rfl⟩

/-- C8 (amended): `normalizeColor c` is a canonical hex colour exactly when
`c` is empty or the lower-cased `c` is six lower-case hexadecimal digits
optionally preceded by one `#`; it is one in particular when `c` is empty or
six hexadecimal digits in any letter case optionally preceded by one `#`, and
a source record whose colour fields are all of that form is mapped to a record
whose colour fields are all canonical. -/
theorem C8_normalizeColor_canonical_iff (lowerTable : Char → Char) :
    (∀ c, isCanonicalHex (normalizeColor lowerTable c) = true ↔
        (c = "" ∨ isLowerHexTriplet (ToLower lowerTable c) = true)) ∧
      (∀ c, (c = "" ∨ isHexTriplet c = true) →
        isCanonicalHex (normalizeColor lowerTable c) = true) ∧
      (∀ file w, (∀ c ∈ WindowsTerminalTheme.colors w, c = "" ∨ isHexTriplet c = true) →
        ∀ c ∈ (parseThemesEntry lowerTable file w).colors, isCanonicalHex c = true) := by
  refine ⟨?_, normalizeColor_triplet lowerTable, ?_⟩
  · intro c
    by_cases hc : c = ""
    · simp only [hc, true_or, iff_true]
      rfl
    · simp only [hc, false_or]
      unfold isCanonicalHex isLowerHexTriplet
      rw [normalizeColor_data lowerTable c hc, ToLower_data]
      rcases hl : c.data.map (unicodeToLower lowerTable) with _ | ⟨a, as⟩
      · simp [dropHash, sixOf]
      · by_cases ha : a = '#'
        · simp [dropHash, ha]
        · simp [dropHash, ha]
  · intro file w hw c hc
    rw [parseThemesEntry_colors] at hc
    obtain ⟨c0, hc0, rfl⟩ := List.mem_map.1 hc
    exact normalizeColor_triplet lowerTable c0 (hw c0 hc0)

/-- C9: for six hexadecimal digits `ds` in any letter case, `normalizeColor`
of `ds` and of `#` followed by `ds` are both `#` followed by the digits
lower-cased, a string matching `^#[0-9a-f]{6}$`. -/
theorem C9_normalizeColor_well_formed (lowerTable : Char → Char) (ds : List Char)
    (hlen : ds.length = 6) (hhex : ∀ d ∈ ds, isHexDigit d = true) :
    normalizeColor lowerTable ⟨ds⟩ = ⟨'#' :: ds.map Char.toLower⟩ ∧
      normalizeColor lowerTable ⟨'#' :: ds⟩ = ⟨'#' :: ds.map Char.toLower⟩ ∧
      isCanonicalHex ⟨'#' :: ds.map Char.toLower⟩ = true ∧
      (∀ d ∈ ds.map Char.toLower, isLowerHexDigit d = true) := by
  have h : sixOf isHexDigit ds = true := (sixOf_iff _ _).2 ⟨hlen, hhex⟩
  have hlow := sixOf_toLower ds h
  exact ⟨(normalizeColor_digits lowerTable ds h).1, (normalizeColor_digits lowerTable ds h).2,
    isCanonicalHex_digits _ hlow, ((sixOf_iff _ _).1 hlow).2⟩

/-- Witness of C9 at the digits `AbCdEf`. -/
theorem C9_normalizeColor_well_formed_witness :
    normalizeColor asciiOnly "AbCdEf" = "#abcdef" ∧
      normalizeColor asciiOnly "#AbCdEf" = "#abcdef" ∧
      isCanonicalHex "#abcdef" = true ∧
      (∀ d ∈ ['A', 'b', 'C', 'd', 'E', 'f'].map Char.toLower, isLowerHexDigit d = true) :=
  C9_normalizeColor_well_formed asciiOnly ['A', 'b', 'C', 'd', 'E', 'f'] (by decide) (by decide)

/-! ## Claims on the record mapper -/

/-- C10: for every source record and file path the mapped `Name` is the
record's `name` when that is non-empty and otherwise the base name of the path
with a trailing `.json` removed; for a path `dir/stem.json` whose `stem` holds
no separator that is `stem`. -/
theorem C10_parseThemes_name (lowerTable : Char → Char) (file : String)
    (w : WindowsTerminalTheme) :
    (w.Name ≠ "" → (parseThemesEntry lowerTable file w).Name = w.Name) ∧
      (w.Name = "" →
        (parseThemesEntry lowerTable file w).Name = TrimSuffix (Base file) ".json") ∧
      (∀ dir stem : String, w.Name = "" → (∀ c ∈ stem.data, c ≠ '/') →
        (parseThemesEntry lowerTable (dir ++ "/" ++ (stem ++ ".json")) w).Name = stem) := by
  refine ⟨?_, ?_, ?_⟩
  · intro h
    simp [parseThemesEntry, h]
  · intro h
    simp [parseThemesEntry, h]
  · intro dir stem h hsep
    have hb : (stem ++ ".json").data ≠ [] := by
      simp [String.data_append]
    have hsep2 : ∀ c ∈ (stem ++ ".json").data, c ≠ '/' := by
      intro c hc
      rw [String.data_append, List.mem_append] at hc
      rcases hc with hc | hc
      · exact hsep c hc
      · revert c
        decide
    simp only [parseThemesEntry, h, if_true]
    rw [Base_join dir _ hb hsep2, TrimSuffix_append]

/-- Witness of C10: a record without a name read from
`/tmp/windowsterminal/Solarized Dark.json`, and a record named `Dracula`. -/
theorem C10_parseThemes_name_witness :
    (parseThemesEntry asciiOnly "/tmp/windowsterminal/x.json" (plainSource "Dracula" "")).Name
        = "Dracula" ∧
      (parseThemesEntry asciiOnly ("/tmp/windowsterminal" ++ "/" ++ ("Solarized Dark" ++ ".json"))
        (plainSource "" "")).Name = "Solarized Dark" :=
  ⟨(C10_parseThemes_name asciiOnly "/tmp/windowsterminal/x.json" (plainSource "Dracula" "")).1
      (by decide),
    (C10_parseThemes_name asciiOnly "" (plainSource "" "")).2.2
      "/tmp/windowsterminal" "Solarized Dark" rfl (by decide)⟩

/-- C11: for every source record the mapped record has `Magenta`,
`BrightMagenta` and `Cursor` equal to `normalizeColor` of `purple`,
`brightPurple` and `cursorColor`, and each of the other fifteen colours equal
to `normalizeColor` of the source field of the same name; the source field
`selectionBackground` has no influence; and the record of the specification's
scenario gets `Magenta = "#aa00aa"`, `BrightMagenta = "#aa11bb"`,
`Foreground = "#000000"`. -/
theorem C11_parseThemes_colors (lowerTable : Char → Char) (file : String)
    (w : WindowsTerminalTheme) :
    ((parseThemesEntry lowerTable file w).Magenta = normalizeColor lowerTable w.Purple ∧
        (parseThemesEntry lowerTable file w).BrightMagenta =
          normalizeColor lowerTable w.BrightPurple ∧
        (parseThemesEntry lowerTable file w).Cursor = normalizeColor lowerTable w.CursorColor) ∧
      ((parseThemesEntry lowerTable file w).Foreground = normalizeColor lowerTable w.Foreground ∧
        (parseThemesEntry lowerTable file w).Background = normalizeColor lowerTable w.Background ∧
        (parseThemesEntry lowerTable file w).Black = normalizeColor lowerTable w.Black ∧
        (parseThemesEntry lowerTable file w).Red = normalizeColor lowerTable w.Red ∧
        (parseThemesEntry lowerTable file w).Green = normalizeColor lowerTable w.Green ∧
        (parseThemesEntry lowerTable file w).Yellow = normalizeColor lowerTable w.Yellow ∧
        (parseThemesEntry lowerTable file w).Blue = normalizeColor lowerTable w.Blue ∧
        (parseThemesEntry lowerTable file w).Cyan = normalizeColor lowerTable w.Cyan ∧
        (parseThemesEntry lowerTable file w).White = normalizeColor lowerTable w.White ∧
        (parseThemesEntry lowerTable file w).BrightBlack =
          normalizeColor lowerTable w.BrightBlack ∧
        (parseThemesEntry lowerTable file w).BrightRed = normalizeColor lowerTable w.BrightRed ∧
        (parseThemesEntry lowerTable file w).BrightGreen =
          normalizeColor lowerTable w.BrightGreen ∧
        (parseThemesEntry lowerTable file w).BrightYellow =
          normalizeColor lowerTable w.BrightYellow ∧
        (parseThemesEntry lowerTable file w).BrightBlue =
          normalizeColor lowerTable w.BrightBlue ∧
        (parseThemesEntry lowerTable file w).BrightCyan =
          normalizeColor lowerTable w.BrightCyan ∧
        (parseThemesEntry lowerTable file w).BrightWhite =
          normalizeColor lowerTable w.BrightWhite) ∧
      (∀ sb : String,
        parseThemesEntry lowerTable file { w with SelectionBackground := sb } =
          parseThemesEntry lowerTable file w) ∧
      ((parseThemesEntry lowerTable file sourceX).Magenta = "#aa00aa" ∧
        (parseThemesEntry lowerTable file sourceX).BrightMagenta = "#aa11bb" ∧
        (parseThemesEntry lowerTable file sourceX).Foreground = "#000000") :=
  ⟨⟨rfl, rfl, rfl⟩,
    ⟨rfl, rfl, rfl, rfl, rfl, rfl, rfl, rfl, rfl, rfl, rfl, rfl, rfl, rfl, rfl, rfl⟩,
    fun _ => rfl, ⟨rfl, rfl, rfl⟩⟩

/-- C12 (evaluation at the failing input): the file name `.json` is matched by
`*.json`, its base name without the suffix is empty, and a record without a
`name` read from `windowsterminal/.json` is mapped to a record whose `Name` is
the empty string; the nineteen colour fields of a mapped record are never
empty. -/
theorem C12_parseThemes_empty_name :
    matchesJSON ".json" = true ∧
      TrimSuffix (Base "windowsterminal/.json") ".json" = "" ∧
      (∀ lowerTable,
        (parseThemesEntry lowerTable "windowsterminal/.json" (plainSource "" "#ffffff")).Name
          = "") ∧
      (∀ lowerTable file w, ∀ c ∈ (parseThemesEntry lowerTable file w).colors, c ≠ "") := by
  refine ⟨by decide, by decide, fun _ => rfl, ?_⟩
  intro lowerTable file w c hc
  rw [parseThemesEntry_colors] at hc
  obtain ⟨c0, _, rfl⟩ := List.mem_map.1 hc
  exact normalizeColor_ne_empty lowerTable c0

/-- C17: `GetTheme q` returns the record of the first key, in the iteration
order, whose lower-case form is that of `q`; a returned record is always
stored under such a key; and a key equal to `q` is not preferred: with the
keys `Foo` and `foo` visited in that order, the query `foo` gets the record
stored under `Foo`. -/
theorem C17_GetTheme_first_match (lowerTable : Char → Char) :
    (∀ (before after : List (String × Theme)) (k : String) (t : Theme) (q : String),
        (∀ e ∈ before, ToLower lowerTable e.1 ≠ ToLower lowerTable q) →
        ToLower lowerTable k = ToLower lowerTable q →
        GetTheme lowerTable (before ++ (k, t) :: after) q = (some t, none)) ∧
      (∀ (order : List (String × Theme)) (q : String) (t : Theme),
        GetTheme lowerTable order q = (some t, none) →
        ∃ k, (k, t) ∈ order ∧ ToLower lowerTable k = ToLower lowerTable q) ∧
      (("foo", plainTheme "foo" "#222222") ∈ orderFoo ∧
        GetTheme lowerTable orderFoo "foo" = (some (plainTheme "Foo" "#111111"), none)) := by
  refine ⟨?_, ?_, by decide, rfl⟩
  · intro before after k t q hbefore hk
    induction before with
    | nil => simp [GetTheme, hk]
    | cons e rest ih =>
      obtain ⟨k0, t0⟩ := e
      have h0 : ToLower lowerTable k0 ≠ ToLower lowerTable q := hbefore (k0, t0) (by simp)
      have hrest : ∀ e ∈ rest, ToLower lowerTable e.1 ≠ ToLower lowerTable q :=
        fun e he => hbefore e (List.mem_cons_of_mem _ he)
      simp only [List.cons_append, GetTheme, if_neg h0]
      exact ih hrest
  · intro order q t hres
    have hex : ∃ e ∈ order, ToLower lowerTable e.1 = ToLower lowerTable q := by
      by_contra hno
      have hnf := (GetTheme_notFound_iff lowerTable order q).2
        (fun e he heq => hno ⟨e, he, heq⟩)
      rw [hres] at hnf
      simp at hnf
    obtain ⟨e, he, heq, hres2⟩ := GetTheme_found lowerTable order q hex
    rw [hres] at hres2
    have ht : t = e.2 := by simpa using hres2
    exact ⟨e.1, by rw [ht]; exact he, heq⟩

/-- C19: for every input `c`, `normalizeColor c` is non-empty, begins with `#`
and contains no upper-case ASCII letter, the Unicode case table giving no
upper-case ASCII letter as the lower case of a rune above `MaxASCII`. -/
theorem C19_normalizeColor_shape (lowerTable : Char → Char)
    (hupper : ∀ r : Char, 127 < r.toNat → isUpperASCII (lowerTable r) = false) (c : String) :
    normalizeColor lowerTable c ≠ "" ∧
      (normalizeColor lowerTable c).data.head? = some '#' ∧
      (∀ r ∈ (normalizeColor lowerTable c).data, isUpperASCII r = false) := by
  refine ⟨normalizeColor_ne_empty lowerTable c, normalizeColor_head lowerTable c, ?_⟩
  by_cases hc : c = ""
  · rw [hc]
    have h0 : normalizeColor lowerTable "" = "#000000" := rfl
    rw [h0]
    decide
  · rw [normalizeColor_data lowerTable c hc]
    have hl : ∀ r ∈ c.data.map (unicodeToLower lowerTable), isUpperASCII r = false := by
      intro r hr
      obtain ⟨x, _, rfl⟩ := List.mem_map.1 hr
      exact unicodeToLower_not_upper lowerTable hupper x
    intro r hr
    split at hr
    · exact hl r hr
    · rcases List.mem_cons.1 hr with rfl | hr
      · rfl
      · exact hl r hr

/-- Witness of C19: the table that changes no rune above `MaxASCII`, at an
input that is not a hex colour. -/
theorem C19_normalizeColor_shape_witness :
    normalizeColor asciiOnly "Not A Colour" ≠ "" ∧
      (normalizeColor asciiOnly "Not A Colour").data.head? = some '#' ∧
      (∀ r ∈ (normalizeColor asciiOnly "Not A Colour").data, isUpperASCII r = false) :=
  C19_normalizeColor_shape asciiOnly
    (by
      intro r hr
      simp only [asciiOnly, isUpperASCII, Bool.and_eq_false_imp, decide_eq_true_eq,
        decide_eq_false_iff_not]
      omega)
    "Not A Colour"

/-! ## Claims on sorting and emission -/

/-- C13: for every listing of files, the list returned by `parseThemes` is a
permutation of the mapped records of the files that were read and decoded, and
is in non-decreasing order of `Name` under the rune-wise comparison of the raw
names: of two positions `i < j`, the name at `i` is smaller than or equal to
the name at `j`. -/
theorem C13_parseThemes_sorted_perm (lowerTable : Char → Char)
    (sortSlice : (Theme → Theme → Bool) → List Theme → List Theme)
    (hsort : sortSliceContract sortSlice)
    (files : List (String × Option WindowsTerminalTheme)) :
    (parseThemes lowerTable sortSlice files).Perm
        (files.filterMap (fun item => item.2.map (parseThemesEntry lowerTable item.1))) ∧
      (∀ i j : Fin (parseThemes lowerTable sortSlice files).length, i < j →
        (stringLess ((parseThemes lowerTable sortSlice files).get i).Name
            ((parseThemes lowerTable sortSlice files).get j).Name = true ∨
          ((parseThemes lowerTable sortSlice files).get i).Name =
            ((parseThemes lowerTable sortSlice files).get j).Name)) := by
  constructor
  · rw [← parseThemesLoop_eq]
    exact parseThemes_perm lowerTable sortSlice hsort files
  · have hs := parseThemes_sorted lowerTable sortSlice hsort files
    intro i j hij
    have h := (List.pairwise_iff_get.1 hs) i j hij
    by_cases hlt : stringLess ((parseThemes lowerTable sortSlice files).get i).Name
        ((parseThemes lowerTable sortSlice files).get j).Name = true
    · exact Or.inl hlt
    · exact Or.inr (stringLess_connected _ _ (by simpa using hlt) h)

/-- Witness of C13: insertion sort as the sort, on a listing with the files
`ayu.json`, `Zenburn.json` and one that cannot be decoded; the upper-case `Z`
sorts before the lower-case `a`. -/
theorem C13_parseThemes_sorted_perm_witness :
    (parseThemes asciiOnly insertionSortSlice filesAZ).map Theme.Name = ["Zenburn", "ayu"] ∧
      ((parseThemes asciiOnly insertionSortSlice filesAZ).Perm
          (filesAZ.filterMap (fun item => item.2.map (parseThemesEntry asciiOnly item.1))) ∧
        (∀ i j : Fin (parseThemes asciiOnly insertionSortSlice filesAZ).length, i < j →
          (stringLess ((parseThemes asciiOnly insertionSortSlice filesAZ).get i).Name
              ((parseThemes asciiOnly insertionSortSlice filesAZ).get j).Name = true ∨
            ((parseThemes asciiOnly insertionSortSlice filesAZ).get i).Name =
              ((parseThemes asciiOnly insertionSortSlice filesAZ).get j).Name))) :=
  ⟨by decide,
    C13_parseThemes_sorted_perm asciiOnly insertionSortSlice insertionSortSlice_contract filesAZ⟩

/-- C14 (counterexample): two files whose records both carry the name `X` give,
whatever the sort, two records named `X`, and `generateCode` writes one entry
for each of them: the emitted names are not pairwise distinct. -/
theorem C14_duplicate_names_emitted :
    (∀ lowerTable sortSlice, sortSliceContract sortSlice →
        (parseThemes lowerTable sortSlice filesXX).map Theme.Name = ["X", "X"]) ∧
      ¬ (["X", "X"] : List String).Nodup ∧
      generateCode (parseThemes asciiOnly insertionSortSlice filesXX) =
        templateHeader ++ templateEntry (plainTheme "X" "#111111") ++
          templateEntry (plainTheme "X" "#222222") ++ "\n\x7d\n" := by
  refine ⟨?_, by decide, ?_⟩
  · intro lowerTable sortSlice hsort
    have hp := (parseThemes_perm lowerTable sortSlice hsort filesXX).map Theme.Name
    have hl : (parseThemesLoop lowerTable filesXX).map Theme.Name = List.replicate 2 "X" := rfl
    rw [hl] at hp
    exact List.perm_replicate.1 hp
  · have hout : parseThemes asciiOnly insertionSortSlice filesXX =
        [plainTheme "X" "#111111", plainTheme "X" "#222222"] := by decide
    rw [hout]
    simp [generateCode, String.join, String.append_assoc]

/-- C14 (amended): whatever the sort, `parseThemes` returns as many records as
were mapped, with the same names counted with repetition, so that the names
returned are pairwise distinct exactly when the mapped names are; and
`generateCode` writes one entry for every record it is given. -/
theorem C14_names_distinct_iff (lowerTable : Char → Char)
    (sortSlice : (Theme → Theme → Bool) → List Theme → List Theme)
    (hsort : sortSliceContract sortSlice)
    (files : List (String × Option WindowsTerminalTheme)) :
    ((parseThemes lowerTable sortSlice files).map Theme.Name).Perm
        ((parseThemesLoop lowerTable files).map Theme.Name) ∧
      (parseThemes lowerTable sortSlice files).length = (parseThemesLoop lowerTable files).length ∧
      (((parseThemes lowerTable sortSlice files).map Theme.Name).Nodup ↔
        ((parseThemesLoop lowerTable files).map Theme.Name).Nodup) ∧
      generateCode (parseThemes lowerTable sortSlice files) =
        templateHeader ++
          String.join ((parseThemes lowerTable sortSlice files).map templateEntry) ++
          "\n\x7d\n" := by
  have hp := parseThemes_perm lowerTable sortSlice hsort files
  exact ⟨hp.map _, hp.length_eq, (hp.map _).nodup_iff, rfl⟩

/-- Witness of C14 (amended): insertion sort on the listing `filesAZ`. -/
theorem C14_names_distinct_iff_witness :
    ((parseThemesLoop asciiOnly filesAZ).map Theme.Name).Nodup ∧
      (((parseThemes asciiOnly insertionSortSlice filesAZ).map Theme.Name).Nodup ↔
        ((parseThemesLoop asciiOnly filesAZ).map Theme.Name).Nodup) :=
  ⟨by decide,
    (C14_names_distinct_iff asciiOnly insertionSortSlice insertionSortSlice_contract
      filesAZ).2.2.1⟩

/-- C15: two listings that are permutations of each other and whose mapped
names are pairwise distinct make `parseThemes` return the same list. -/
theorem C15_parseThemes_order_independent (lowerTable : Char → Char)
    (sortSlice : (Theme → Theme → Bool) → List Theme → List Theme)
    (hsort : sortSliceContract sortSlice)
    (files1 files2 : List (String × Option WindowsTerminalTheme))
    (hperm : files1.Perm files2)
    (hdistinct : ((parseThemesLoop lowerTable files1).map Theme.Name).Nodup) :
    parseThemes lowerTable sortSlice files1 = parseThemes lowerTable sortSlice files2 := by
  have hp1 := parseThemes_perm lowerTable sortSlice hsort files1
  have hp2 := parseThemes_perm lowerTable sortSlice hsort files2
  have hloop := parseThemesLoop_perm lowerTable files1 files2 hperm
  have hn1 : ((parseThemes lowerTable sortSlice files1).map Theme.Name).Nodup :=
    (hp1.map Theme.Name).nodup_iff.2 hdistinct
  have hn2 : ((parseThemes lowerTable sortSlice files2).map Theme.Name).Nodup :=
    ((hp2.trans hloop.symm).map Theme.Name).nodup_iff.2 hdistinct
  have hs1 := strict_of_sorted_nodup _ (parseThemes_sorted lowerTable sortSlice hsort files1) hn1
  have hs2 := strict_of_sorted_nodup _ (parseThemes_sorted lowerTable sortSlice hsort files2) hn2
  haveI : IsAntisymm Theme (fun a b => stringLess a.Name b.Name = true) :=
    ⟨fun a b h1 h2 => by
      rw [stringLess_asymm a.Name b.Name h1] at h2
      exact absurd h2 (by decide)⟩
  exact List.eq_of_perm_of_sorted ((hp1.trans hloop).trans hp2.symm) hs1 hs2

/-- Witness of C15: the listings `filesAZ` and `filesZA` under insertion sort. -/
theorem C15_parseThemes_order_independent_witness :
    parseThemes asciiOnly insertionSortSlice filesAZ =
      parseThemes asciiOnly insertionSortSlice filesZA :=
  C15_parseThemes_order_independent asciiOnly insertionSortSlice insertionSortSlice_contract
    filesAZ filesZA (List.Perm.swap _ _ _) (by decide)

/-- C16 (counterexample): thirteen files read in the order of their names, the
first record named `Y` and the twelve others named `X`.  `sort.Slice` takes the
record at index 6 as the pivot and exchanges it with the one at index 0; the
partition leaves it in front, the other twelve records are insertion-sorted,
and the record of the seventh file ends before the records of the five files
read ahead of it that carry the same name. -/
theorem C16_sort_Slice_not_stable :
    (∀ lowerTable, parseThemesLoop lowerTable files13 = records13) ∧
      (∀ random lowerTable, parseThemes lowerTable (sort_Slice random) files13 = sorted13) ∧
      withName "X" records13 =
        themesX ["#000001", "#000002", "#000003", "#000004", "#000005", "#000006",
          "#000007", "#000008", "#000009", "#00000a", "#00000b", "#00000c"] ∧
      withName "X" sorted13 =
        themesX ["#000006", "#000001", "#000002", "#000003", "#000004", "#000005",
          "#000007", "#000008", "#000009", "#00000a", "#00000b", "#00000c"] ∧
      (∀ random lowerTable,
        withName "X" (parseThemes lowerTable (sort_Slice random) files13) ≠
          withName "X" (parseThemesLoop lowerTable files13)) := by
  have hloop : ∀ lowerTable, parseThemesLoop lowerTable files13 = records13 :=
    fun _ => rfl
  have hsorted : ∀ random lowerTable,
      parseThemes lowerTable (sort_Slice random) files13 = sorted13 := by
    intro random lowerTable
    unfold parseThemes
    rw [hloop]
    exact sort_Slice_records13 random
  refine ⟨hloop, hsorted, by decide, by decide, ?_⟩
  intro random lowerTable
  rw [hsorted, hloop]
  decide

/-- C16 (amended): when at most twelve records are sorted, `sort.Slice` is an
insertion sort and the sort by `Name` is stable: for every name, the records of
the output that carry it are the records of the input that carry it, in the
same order. -/
theorem C16_sort_stable_upto_twelve (random : Nat → Nat → Nat) (lowerTable : Char → Char)
    (files : List (String × Option WindowsTerminalTheme))
    (hlen : (parseThemesLoop lowerTable files).length ≤ 12) (n : String) :
    withName n (parseThemes lowerTable (sort_Slice random) files) =
      withName n (parseThemesLoop lowerTable files) := by
  unfold parseThemes
  rw [sort_Slice_short random _ _ hlen, insertionSort_func_withName]

/-- Witness of C16 (amended): the two records named `X` of `filesXX` keep
their order. -/
theorem C16_sort_stable_upto_twelve_witness :
    (parseThemesLoop asciiOnly filesXX).length ≤ 12 ∧
      withName "X" (parseThemes asciiOnly (sort_Slice noRandom) filesXX) =
        [plainTheme "X" "#111111", plainTheme "X" "#222222"] ∧
      withName "X" (parseThemes asciiOnly (sort_Slice noRandom) filesXX) =
        withName "X" (parseThemesLoop asciiOnly filesXX) :=
  ⟨by decide, by decide,
    C16_sort_stable_upto_twelve noRandom asciiOnly filesXX (by decide) "X"⟩

/-- C18 (counterexample): the name made of `a`, a backslash, `n`, `b` is
written between double quotes as it is, both as the key and as the `Name`
field of its entry; read as a Go string literal that text denotes `a`, a
newline, `b`, which is not the name.  A name with a double quote gives a text
that is not one string literal. -/
theorem C18_generateCode_not_escaped :
    themeBackslash.Name.data = ['a', Char.ofNat 92, 'n', 'b'] ∧
      HasPrefix (templateEntry themeBackslash)
        "\n\t\"a\\nb\": \x7b\n\t\tName:          \"a\\nb\",\n" = true ∧
      (goStringLiteral (templateQuote themeBackslash.Name)).map String.data =
        some ['a', Char.ofNat 10, 'b'] ∧
      goStringLiteral (templateQuote themeBackslash.Name) ≠ some themeBackslash.Name ∧
      goStringLiteral (templateQuote "a\"b") = none := by
  refine ⟨by decide, by decide, by decide, by decide, by decide⟩

/-- C18 (amended): for every record whose `Name` holds no double quote, no
backslash and no newline, the entry written by `generateCode` has the name
between double quotes as its key and as its `Name` field, and that text is a
Go string literal denoting exactly the name. -/
theorem C18_generateCode_plain_names (t : Theme)
    (hplain : ∀ c ∈ t.Name.data,
      c ≠ Char.ofNat 34 ∧ c ≠ Char.ofNat 92 ∧ c ≠ Char.ofNat 10) :
    goStringLiteral (templateQuote t.Name) = some t.Name ∧
      (∃ rest, templateEntry t =
        "\n\t" ++ templateQuote t.Name ++ ": \x7b\n" ++ "\t\t" ++ "Name:          " ++
          templateQuote t.Name ++ rest) ∧
      generateCode [t] = templateHeader ++ (templateEntry t ++ "\n\x7d\n") := by
  refine ⟨goStringLiteral_plain t.Name hplain, ?_, ?_⟩
  · simp only [templateEntry, templateField, String.append_assoc]
    exact ⟨_, rfl⟩
  · simp [generateCode, String.join, String.append_assoc]

/-- Witness of C18 (amended): a record named `Solarized Dark`. -/
theorem C18_generateCode_plain_names_witness :
    goStringLiteral (templateQuote "Solarized Dark") = some "Solarized Dark" ∧
      (∃ rest, templateEntry (plainTheme "Solarized Dark" "#002b36") =
        "\n\t" ++ templateQuote "Solarized Dark" ++ ": \x7b\n" ++ "\t\t" ++ "Name:          " ++
          templateQuote "Solarized Dark" ++ rest) ∧
      generateCode [plainTheme "Solarized Dark" "#002b36"] =
        templateHeader ++ (templateEntry (plainTheme "Solarized Dark" "#002b36") ++ "\n\x7d\n") :=
  C18_generateCode_plain_names (plainTheme "Solarized Dark" "#002b36") (by decide)

end Themes
